import Mathlib

/-!
Shallow embedding of the mini-match limit order matching engine
(src/main.cpp) and proofs about its specification claims.

Modelling conventions:
* `Price` and `Qty` are modeled as `Nat`. The source stores them as
  `std::uint64_t` wrappers whose subtraction asserts that the minuend
  dominates; no claim depends on 64-bit wraparound, and every subtraction the
  engine performs is shown (or asserted by the source) to be non-underflowing,
  so `Nat` with truncated subtraction is the faithful reading.
* `OrderID` is a `String`, as in the source.
* The two `std::set<Level, Level::CompareLevel>` sides are modeled as lists of
  levels kept in strictly descending price order, which is exactly the
  iteration order of the C++ sets (`CompareLevel` compares with `>`).
* The id map `orders_by_id_` always indexes exactly the orders resting in the
  levels (every code path inserts/erases map entries together with the order),
  so map lookup is modeled by searching the level lists.
* `Level` carries the cached aggregate quantity `qty` exactly as the source
  does; every operation updates it the way the corresponding C++ member does.
-/

set_option autoImplicit false

namespace MiniMatch

/-- Order side (`enum class Side`). -/
inductive Side where
  | Buy
  | Sell
  | Invalid
deriving DecidableEq, Repr

/-- Time in force (`enum class TIF`). -/
inductive TIF where
  | GFD
  | IOC
  | Invalid
deriving DecidableEq, Repr

/-- A resting order: identifier and remaining quantity (`class Order`). The
C++ object also stores level/queue back-links for O(1) access; the model
locates orders by searching, which coincides because the book keeps the links
coherent with the order's actual residence. -/
structure Order where
  order_id : String
  qty : Nat
deriving DecidableEq, Repr

/-- A price level: price, cached aggregate quantity, FIFO queue of orders
(`class Level`). -/
structure Level where
  price : Nat
  qty : Nat
  orders : List Order
deriving DecidableEq, Repr

namespace Level

/-- `Level::add`: append a new order at the tail, increase the cached qty. -/
def add (lv : Level) (id : String) (q : Nat) : Level :=
  { lv with qty := lv.qty + q, orders := lv.orders ++ [⟨id, q⟩] }

/-- Does this level hold an order with the given id? -/
def hasId (lv : Level) (id : String) : Bool :=
  lv.orders.any (fun o => o.order_id == id)

/-- `Level::cancel`: erase the order with this id, decrease the cached qty. -/
def cancel (lv : Level) (id : String) : Level :=
  match lv.orders.find? (fun o => o.order_id == id) with
  | none => lv
  | some o =>
    { lv with
      qty := lv.qty - o.qty,
      orders := lv.orders.eraseP (fun x => x.order_id == id) }

/-- Replace the first order with the given id by one with a new qty, keeping
its queue slot. -/
def setFirst : List Order → String → Nat → List Order
  | [], _, _ => []
  | o :: os, id, q =>
    if o.order_id == id then ⟨id, q⟩ :: os
    else o :: setFirst os id q

/-- `Level::modify_qty`: assign a new qty; the order keeps its queue
position; the cached qty is adjusted by the difference. -/
def modify_qty (lv : Level) (id : String) (q : Nat) : Level :=
  match lv.orders.find? (fun o => o.order_id == id) with
  | none => lv
  | some o =>
    { lv with
      qty := lv.qty - o.qty + q,
      orders := setFirst lv.orders id q }

/-- `Level::modify`: `modify_qty` followed by splicing the order to the tail
of the queue (the order forfeits its queue position). -/
def modify (lv : Level) (id : String) (q : Nat) : Level :=
  match lv.orders.find? (fun o => o.order_id == id) with
  | none => lv
  | some o =>
    { lv with
      qty := lv.qty - o.qty + q,
      orders := lv.orders.eraseP (fun x => x.order_id == id) ++ [⟨id, q⟩] }

end Level

/-- Insert an order into a price-descending level list at the tail of the
level at price `p`, creating that level if absent (`Book::add`'s
`lower_bound` against the `>` comparator followed by `Level::add`). -/
def addToLevels (id : String) (q p : Nat) : List Level → List Level
  | [] => [⟨p, q, [⟨id, q⟩]⟩]
  | lv :: ls =>
    if p > lv.price then ⟨p, q, [⟨id, q⟩]⟩ :: lv :: ls
    else if p = lv.price then lv.add id q :: ls
    else lv :: addToLevels id q p ls

/-- Does any level in the list hold an order with the given id? -/
def levelsHasId (ls : List Level) (id : String) : Bool :=
  ls.any (fun lv => lv.hasId id)

/-- Remove the order with this id from the level list, dropping its level if
the queue becomes empty (`Book::cancel` body). -/
def cancelInLevels (id : String) : List Level → List Level
  | [] => []
  | lv :: ls =>
    if lv.hasId id then
      let lv2 := lv.cancel id
      if lv2.orders.isEmpty then ls else lv2 :: ls
    else lv :: cancelInLevels id ls

/-- Apply `Level::modify_qty` to the level holding this id (reached through
the order's back-links in the C++; used by `Book::fill_orders`). -/
def setQtyInLevels (id : String) (q : Nat) : List Level → List Level
  | [] => []
  | lv :: ls =>
    if lv.hasId id then lv.modify_qty id q :: ls
    else lv :: setQtyInLevels id q ls

/-- Apply `Level::modify` to the level holding this id (`Book::modify`, same
side and price with a new qty). -/
def modifyInLevels (id : String) (q : Nat) : List Level → List Level
  | [] => []
  | lv :: ls =>
    if lv.hasId id then lv.modify id q :: ls
    else lv :: modifyInLevels id q ls

/-- A trade event (`struct Trade`), flattened: the source stores copies of the
passive and aggressive `Order`; here their id and qty appear as fields. -/
structure Trade where
  passive_price : Nat
  passive_id : String
  passive_qty : Nat
  aggressive_price : Nat
  aggressive_id : String
  aggressive_qty : Nat
deriving DecidableEq, Repr

/-- The order book (`class Book`): two price-descending level lists (the two
`std::set`s share the descending `Level::CompareLevel` comparator) plus the id
index modeled by search. -/
structure Book where
  buy_levels : List Level
  sell_levels : List Level
deriving DecidableEq, Repr

namespace Book

def empty : Book := ⟨[], []⟩

/-- `Book::clear`. -/
def clear (_ : Book) : Book := ⟨[], []⟩

/-- `orders_by_id_.count(order_id)`: is the id live anywhere in the book? -/
def containsId (b : Book) (id : String) : Bool :=
  levelsHasId b.buy_levels id || levelsHasId b.sell_levels id

/-- `Book::add(side, ...)`: dispatch on side; a duplicate id is a no-op. -/
def add (b : Book) (side : Side) (id : String) (q p : Nat) : Book :=
  match side with
  | .Buy =>
    if b.containsId id then b
    else { b with buy_levels := addToLevels id q p b.buy_levels }
  | .Sell =>
    if b.containsId id then b
    else { b with sell_levels := addToLevels id q p b.sell_levels }
  | .Invalid => b

/-- `Book::cancel`: no-op for an unknown id; otherwise remove the order from
its level, dropping the level if emptied, and unindex the id. -/
def cancel (b : Book) (id : String) : Book :=
  if levelsHasId b.buy_levels id then
    { b with buy_levels := cancelInLevels id b.buy_levels }
  else if levelsHasId b.sell_levels id then
    { b with sell_levels := cancelInLevels id b.sell_levels }
  else b

/-- `Level::modify_qty` on the level holding `id`, reached from the book
(used by `Book::fill_orders` for partial fills). -/
def setQty (b : Book) (id : String) (q : Nat) : Book :=
  if levelsHasId b.buy_levels id then
    { b with buy_levels := setQtyInLevels id q b.buy_levels }
  else if levelsHasId b.sell_levels id then
    { b with sell_levels := setQtyInLevels id q b.sell_levels }
  else b

end Book

/-- Level price and remaining qty of the resting order with this id in a
level list. -/
def findInLevels (ls : List Level) (id : String) : Option (Nat × Nat) :=
  match ls.find? (fun lv => lv.hasId id) with
  | some lv =>
    match lv.orders.find? (fun o => o.order_id == id) with
    | some o => some (lv.price, o.qty)
    | none => none
  | none => none

namespace Book

/-- Side, level price and remaining qty of the resting order with this id
(the id map entry dereferenced). -/
def findOrder (b : Book) (id : String) : Option (Side × Nat × Nat) :=
  match findInLevels b.buy_levels id with
  | some (pr, q) => some (.Buy, pr, q)
  | none =>
    match findInLevels b.sell_levels id with
    | some (pr, q) => some (.Sell, pr, q)
    | none => none

/-- `Book::modify` body for a Buy/Sell target side (`targetBuy` selects the
level set passed in the C++): unknown id is a no-op; same side and price with
the same qty is a no-op, with a different qty the order is requantified and
loses its queue position; otherwise the order is spliced to the tail of the
level at the new side/price (created on demand), the old level being removed
if emptied. The spliced end state equals remove-then-insert. -/
def modifyIn (b : Book) (targetBuy : Bool) (id : String) (q p : Nat) : Book :=
  match b.findOrder id with
  | none => b
  | some (cside, cprice, cqty) =>
    let curBuy := cside == Side.Buy
    if curBuy == targetBuy && cprice == p then
      if q == cqty then b
      else if targetBuy then { b with buy_levels := modifyInLevels id q b.buy_levels }
      else { b with sell_levels := modifyInLevels id q b.sell_levels }
    else
      let b1 : Book :=
        if curBuy then { b with buy_levels := cancelInLevels id b.buy_levels }
        else { b with sell_levels := cancelInLevels id b.sell_levels }
      if targetBuy then { b1 with buy_levels := addToLevels id q p b1.buy_levels }
      else { b1 with sell_levels := addToLevels id q p b1.sell_levels }

/-- `Book::modify(side, ...)`: dispatch on side. -/
def modify (b : Book) (side : Side) (id : String) (q p : Nat) : Book :=
  match side with
  | .Buy => b.modifyIn true id q p
  | .Sell => b.modifyIn false id q p
  | .Invalid => b

end Book

/-- Inner loop of the `Book::match` template: walk one level's FIFO queue,
skipping any resting order whose id equals the aggressive id. Returns the
leaves qty, the trades emitted from this level, and whether the C++ loop
`return`ed early because the leaves qty reached zero. -/
def matchOrders (id : String) (p lvPrice : Nat) :
    Nat → List Order → Nat × List Trade × Bool
  | leaves, [] => (leaves, [], false)
  | leaves, o :: os =>
    if o.order_id == id then matchOrders id p lvPrice leaves os
    else
      let m := min leaves o.qty
      let t : Trade := ⟨lvPrice, o.order_id, o.qty, p, id, m⟩
      if leaves - m = 0 then (0, [t], true)
      else
        let r := matchOrders id p lvPrice (leaves - m) os
        (r.1, t :: r.2.1, r.2.2)

/-- Level loop of the `Book::match` template: visit levels in iteration
order, stopping at the first level whose price fails the match predicate, or
when the inner loop returned early. -/
def matchWalk (id : String) (p : Nat) (pred : Nat → Nat → Bool) :
    Nat → List Level → Nat × List Trade
  | leaves, [] => (leaves, [])
  | leaves, lv :: ls =>
    if pred p lv.price then
      let r := matchOrders id p lv.price leaves lv.orders
      if r.2.2 then (r.1, r.2.1)
      else
        let r2 := matchWalk id p pred r.1 ls
        (r2.1, r.2.1 ++ r2.2)
    else (leaves, [])

namespace Book

/-- `Book::fill_orders`: for each trade in order, cancel the passive order if
its full remaining qty was consumed (removing its level if emptied),
otherwise set its remaining qty to the difference in place; the partial case
also normalizes the emitted trade's passive qty to the fill size. Returns the
updated book and the normalized trades. -/
def fillOrders : Book → List Trade → Book × List Trade
  | b, [] => (b, [])
  | b, t :: ts =>
    if t.passive_qty - t.aggressive_qty = 0 then
      let r := fillOrders (b.cancel t.passive_id) ts
      (r.1, t :: r.2)
    else
      let r := fillOrders (b.setQty t.passive_id (t.passive_qty - t.aggressive_qty)) ts
      (r.1, { t with passive_qty := t.aggressive_qty } :: r.2)

/-- `Book::match`: a Buy aggressor walks the sell side in ascending price
order (the reverse of the stored descending set, `crbegin`/`crend`) with the
predicate `order_price >= level_price`; a Sell aggressor walks the buy side
in descending order with `order_price <= level_price`; afterwards the fills
are applied. Returns the book after fills, the normalized trades, and the
leaves qty. -/
def matchOrder (b : Book) (side : Side) (id : String) (q p : Nat) :
    Book × List Trade × Nat :=
  match side with
  | .Buy =>
    let r := matchWalk id p (fun op lp => decide (op ≥ lp)) q b.sell_levels.reverse
    let f := fillOrders b r.2
    (f.1, f.2, r.1)
  | .Sell =>
    let r := matchWalk id p (fun op lp => decide (op ≤ lp)) q b.buy_levels
    let f := fillOrders b r.2
    (f.1, f.2, r.1)
  | .Invalid =>
    let f := fillOrders b []
    (f.1, f.2, q)

end Book

/-- `MatchingEngine::handle_add`: match first; if the leaves qty is zero we
are done; otherwise a GFD residue is added to the book at the order's price
and side, and an IOC residue is discarded. -/
def handleAdd (b : Book) (side : Side) (tif : TIF) (id : String) (q p : Nat) :
    Book × List Trade :=
  let r := b.matchOrder side id q p
  if r.2.2 = 0 then (r.1, r.2.1)
  else
    match tif with
    | .GFD => (r.1.add side id r.2.2 p, r.2.1)
    | .IOC => (r.1, r.2.1)
    | .Invalid => (r.1, r.2.1)

/-- `MatchingEngine::handle(ModifyOrder)`: match at the new terms (with the
modified order's id, so self-match prevention skips the pre-modification
residue); if fully filled cancel the original order, otherwise modify it to
the new side/price with the leaves qty. -/
def handleModify (b : Book) (id : String) (side : Side) (p q : Nat) :
    Book × List Trade :=
  let r := b.matchOrder side id q p
  if r.2.2 = 0 then (r.1.cancel id, r.2.1)
  else (r.1.modify side id r.2.2 p, r.2.1)

/-- One printed level line (`operator<<(std::ostream &, Level const &)`). -/
def levelLine (lv : Level) : String :=
  toString lv.price ++ " " ++ toString lv.qty

/-- The `PRINT` snapshot (`operator<<(std::ostream &, Book const &)`): the
sell side in stored (descending) order, then the buy side in stored
(descending) order. -/
def Book.snapshot (b : Book) : List String :=
  ("SELL:" :: b.sell_levels.map levelLine) ++ ("BUY:" :: b.buy_levels.map levelLine)

/-- Decoded commands (the message structs of section 2 of the source). -/
inductive Cmd where
  | buy (tif : TIF) (p q : Nat) (id : String)
  | sell (tif : TIF) (p q : Nat) (id : String)
  | cancel (id : String)
  | modify (id : String) (side : Side) (p q : Nat)
  | printBook
  | clearBook
deriving DecidableEq, Repr

/-- The decoder's `is_valid` checks for each message type. -/
def Cmd.valid : Cmd → Bool
  | .buy tif p q id => tif != TIF.Invalid && p != 0 && q != 0 && id != ""
  | .sell tif p q id => tif != TIF.Invalid && p != 0 && q != 0 && id != ""
  | .cancel id => id != ""
  | .modify id side p q => id != "" && side != Side.Invalid && p != 0 && q != 0
  | .printBook => true
  | .clearBook => true

/-- The book transition performed by one decoded command
(`CommandProcessor::handle` dispatching into `MatchingEngine`). -/
def Cmd.apply (b : Book) : Cmd → Book
  | .buy tif p q id => (handleAdd b .Buy tif id q p).1
  | .sell tif p q id => (handleAdd b .Sell tif id q p).1
  | .cancel id => b.cancel id
  | .modify id side p q => (handleModify b id side p q).1
  | .printBook => b
  | .clearBook => b.clear

def applyCmds (cs : List Cmd) : Book :=
  cs.foldl Cmd.apply Book.empty

/-- Book states reachable from the empty book by decoder-accepted commands. -/
def Reachable (b : Book) : Prop :=
  ∃ cs : List Cmd, (∀ c ∈ cs, c.valid) ∧ applyCmds cs = b

/-! ### Derived observations used to state properties -/

/-- The ids of the orders in a level, in queue order. -/
def oids (lv : Level) : List String := lv.orders.map Order.order_id

/-- The flattened ids of a level list, in iteration order. -/
def flatIds (ls : List Level) : List String := ls.flatMap oids

/-- All live ids of the book (the key set of `orders_by_id_`). -/
def Book.allIds (b : Book) : List String := flatIds b.buy_levels ++ flatIds b.sell_levels

/-- The level prices of a level list, in iteration order. -/
def pricesOf (ls : List Level) : List Nat := ls.map Level.price

/-- (level price, order id) keys of a walked level list, in walk order:
price priority first (list order), FIFO within each level. -/
def walkPairs (ls : List Level) : List (Nat × String) :=
  ls.flatMap (fun lv => lv.orders.map (fun o => (lv.price, o.order_id)))

/-- (level price, order id, order qty) keys of a walked level list. -/
def walkKeys (ls : List Level) : List (Nat × String × Nat) :=
  ls.flatMap (fun lv => lv.orders.map (fun o => (lv.price, o.order_id, o.qty)))

/-- Level list `ls'` originates from `ls`: every level of `ls'` keeps the
price of a level of `ls` and holds only ids that level already held. The
fill operations (cancel, requantify) only shrink books in this sense. -/
def LevelsOrigin (ls' ls : List Level) : Prop :=
  ∀ lv' ∈ ls', ∃ lv ∈ ls, lv'.price = lv.price ∧ ∀ oid ∈ oids lv', oid ∈ oids lv

/-- The book is uncrossed: every resting buy price is below every resting
sell price. -/
def Uncrossed (b : Book) : Prop :=
  ∀ bp ∈ pricesOf b.buy_levels, ∀ sp ∈ pricesOf b.sell_levels, bp < sp

/-- The structural well-formedness invariant of the book: both sides strictly
price-descending, no empty levels, globally unique ids, positive order
quantities, correct cached level quantities, and an uncrossed book. -/
structure BookWF (b : Book) : Prop where
  buy_sorted : (pricesOf b.buy_levels).Pairwise (· > ·)
  sell_sorted : (pricesOf b.sell_levels).Pairwise (· > ·)
  nonempty : ∀ lv ∈ b.buy_levels ++ b.sell_levels, lv.orders ≠ []
  nodup : b.allIds.Nodup
  qpos : ∀ lv ∈ b.buy_levels ++ b.sell_levels, ∀ o ∈ lv.orders, 0 < o.qty
  cache : ∀ lv ∈ b.buy_levels ++ b.sell_levels, lv.qty = (lv.orders.map Order.qty).sum
  uncrossed : Uncrossed b

/-!  The token-level input stream and `CommandProcessor_T::run`, for the
error-handling claims.  `std::istream` is modeled at whitespace-token
granularity with a fail flag: a numeric extraction follows the `strtoull`
semantics of `num_get` for `std::uint64_t` (optional sign, longest decimal
digit run, wrap-around modulo `2^64` for a `-` sign, failbit when no digit
converts or the digit run's value is out of range, any unconsumed suffix
left to head the next extraction), and any extraction from a failed or
exhausted stream fails.  Message structs are freshly value-initialized per
command, so failed field reads leave the invalidating defaults (price 0,
qty 0, empty id) exactly as in the source. -/

theorem matchOrders_leaves_le (id : String) (p lp : Nat) (leaves : Nat) (os : List Order) :
    (matchOrders id p lp leaves os).1 ≤ leaves := by
  induction os generalizing leaves with
  | nil => simp [matchOrders]
  | cons o os ih =>
    simp only [matchOrders]
    split
    · exact ih leaves
    · split
      · simp
      · exact le_trans (ih _) (Nat.sub_le _ _)

theorem matchOrders_flag (id : String) (p lp : Nat) (leaves : Nat) (os : List Order) :
    (matchOrders id p lp leaves os).2.2 = true → (matchOrders id p lp leaves os).1 = 0 := by
  induction os generalizing leaves with
  | nil => simp [matchOrders]
  | cons o os ih =>
    simp only [matchOrders]
    split
    · exact ih _
    · split
      · intro _
        rfl
      · exact ih _

theorem matchOrders_shape (id : String) (p lp : Nat) (leaves : Nat) (os : List Order) :
    ∀ t ∈ (matchOrders id p lp leaves os).2.1,
      t.aggressive_id = id ∧ t.aggressive_price = p ∧ t.passive_price = lp ∧
      t.passive_id ≠ id ∧ t.aggressive_qty ≤ t.passive_qty := by
  induction os generalizing leaves with
  | nil => simp [matchOrders]
  | cons o os ih =>
    intro t ht
    simp only [matchOrders] at ht
    split at ht
    · exact ih _ t ht
    · rename_i hid
      have hid' : o.order_id ≠ id := by simpa using hid
      split at ht
      · simp only [List.mem_singleton] at ht
        subst ht
        exact ⟨rfl, rfl, rfl, hid', Nat.min_le_right _ _⟩
      · simp only [List.mem_cons] at ht
        rcases ht with rfl | ht
        · exact ⟨rfl, rfl, rfl, hid', Nat.min_le_right _ _⟩
        · exact ih _ t ht

theorem matchOrders_sublist (id : String) (p lp : Nat) (leaves : Nat) (os : List Order) :
    ((matchOrders id p lp leaves os).2.1.map
        (fun t => (t.passive_price, t.passive_id, t.passive_qty))).Sublist
      (os.map (fun o => (lp, o.order_id, o.qty))) := by
  induction os generalizing leaves with
  | nil => simp [matchOrders]
  | cons o os ih =>
    simp only [matchOrders, List.map_cons]
    split
    · exact (ih leaves).cons _
    · split
      · simp only [List.map_cons, List.map_nil]
        exact (List.nil_sublist _).cons₂ _
      · simp only [List.map_cons]
        exact (ih _).cons₂ _

theorem matchOrders_full (id : String) (p lp : Nat) (leaves : Nat) (os : List Order) :
    (matchOrders id p lp leaves os).2.2 = false → (matchOrders id p lp leaves os).1 ≠ 0 →
    ∀ o ∈ os, o.order_id ≠ id →
      (⟨lp, o.order_id, o.qty, p, id, o.qty⟩ : Trade) ∈ (matchOrders id p lp leaves os).2.1 := by
  induction os generalizing leaves with
  | nil => simp
  | cons o os ih =>
    simp only [matchOrders]
    split
    · rename_i hid
      intro hflag hnz o' ho' hne
      rcases List.mem_cons.1 ho' with rfl | ho'
      · exact absurd (by simpa using hid) hne
      · exact ih _ hflag hnz o' ho' hne
    · rename_i hid
      split
      · rename_i hz
        intro hflag
        simp at hflag
      · rename_i hz
        intro hflag hnz o' ho' hne
        rcases List.mem_cons.1 ho' with rfl | ho'
        · have hm : min leaves o'.qty = o'.qty := by
            rcases Nat.le_total leaves o'.qty with h | h
            · exact absurd (by omega) hz
            · exact Nat.min_eq_right h
          rw [hm]
          exact List.mem_cons_self _ _
        · exact List.mem_cons_of_mem _ (ih _ hflag hnz o' ho' hne)

theorem matchWalk_leaves_le (id : String) (p : Nat) (pred : Nat → Nat → Bool)
    (leaves : Nat) (ls : List Level) :
    (matchWalk id p pred leaves ls).1 ≤ leaves := by
  induction ls generalizing leaves with
  | nil => simp [matchWalk]
  | cons lv ls ih =>
    simp only [matchWalk]
    split
    · split
      · exact matchOrders_leaves_le ..
      · exact le_trans (ih _) (matchOrders_leaves_le ..)
    · exact le_refl _

theorem matchWalk_shape (id : String) (p : Nat) (pred : Nat → Nat → Bool)
    (leaves : Nat) (ls : List Level) :
    ∀ t ∈ (matchWalk id p pred leaves ls).2,
      t.aggressive_id = id ∧ t.aggressive_price = p ∧ pred p t.passive_price = true ∧
      t.passive_id ≠ id ∧ t.aggressive_qty ≤ t.passive_qty := by
  induction ls generalizing leaves with
  | nil => simp [matchWalk]
  | cons lv ls ih =>
    intro t ht
    simp only [matchWalk] at ht
    split at ht
    · rename_i hpred
      split at ht
      · obtain ⟨h1, h2, h3, h4, h5⟩ := matchOrders_shape id p lv.price leaves lv.orders t ht
        exact ⟨h1, h2, by rw [h3]; exact hpred, h4, h5⟩
      · rcases List.mem_append.1 ht with ht | ht
        · obtain ⟨h1, h2, h3, h4, h5⟩ := matchOrders_shape id p lv.price leaves lv.orders t ht
          exact ⟨h1, h2, by rw [h3]; exact hpred, h4, h5⟩
        · exact ih _ t ht
    · exact absurd ht (by simp)

theorem matchWalk_sublist (id : String) (p : Nat) (pred : Nat → Nat → Bool)
    (leaves : Nat) (ls : List Level) :
    ((matchWalk id p pred leaves ls).2.map
        (fun t => (t.passive_price, t.passive_id, t.passive_qty))).Sublist
      (walkKeys (ls.takeWhile (fun lv => pred p lv.price))) := by
  induction ls generalizing leaves with
  | nil => simp [matchWalk, walkKeys]
  | cons lv ls ih =>
    simp only [matchWalk]
    split
    · rename_i hpred
      simp only [List.takeWhile_cons, hpred, if_true, walkKeys, List.flatMap_cons]
      split
      · exact (matchOrders_sublist id p lv.price leaves lv.orders).trans
          (List.sublist_append_left _ _)
      · simp only [List.map_append]
        exact (matchOrders_sublist id p lv.price leaves lv.orders).append
          ((ih _).trans (by simp [walkKeys]))
    · rename_i hpred
      simp only [List.map_nil]
      exact List.nil_sublist _

theorem matchWalk_full (id : String) (p : Nat) (pred : Nat → Nat → Bool)
    (leaves : Nat) (ls : List Level) :
    ls.Pairwise (fun a b => pred p b.price = true → pred p a.price = true) →
    (matchWalk id p pred leaves ls).1 ≠ 0 →
    ∀ lv ∈ ls, pred p lv.price = true → ∀ o ∈ lv.orders, o.order_id ≠ id →
      (⟨lv.price, o.order_id, o.qty, p, id, o.qty⟩ : Trade) ∈ (matchWalk id p pred leaves ls).2 := by
  induction ls generalizing leaves with
  | nil => simp
  | cons lv0 ls ih =>
    intro hmono hnz lv hlv hpredlv o ho hne
    rcases List.pairwise_cons.1 hmono with ⟨hhead, htail⟩
    by_cases hpred0 : pred p lv0.price = true
    · cases hflag : (matchOrders id p lv0.price leaves lv0.orders).2.2 with
      | true =>
        exfalso
        apply hnz
        simp only [matchWalk, hpred0, if_true, hflag]
        exact matchOrders_flag _ _ _ _ _ hflag
      | false =>
        have hres : matchWalk id p pred leaves (lv0 :: ls) =
            ((matchWalk id p pred (matchOrders id p lv0.price leaves lv0.orders).1 ls).1,
             (matchOrders id p lv0.price leaves lv0.orders).2.1 ++
             (matchWalk id p pred (matchOrders id p lv0.price leaves lv0.orders).1 ls).2) := by
          simp [matchWalk, hpred0, hflag]
        rw [hres] at hnz ⊢
        have hinner : (matchOrders id p lv0.price leaves lv0.orders).1 ≠ 0 := by
          intro h0
          exact hnz (Nat.le_zero.1 (h0 ▸ matchWalk_leaves_le id p pred _ ls))
        rcases List.mem_cons.1 hlv with rfl | hlv
        · exact List.mem_append_left _
            (matchOrders_full id p lv.price leaves lv.orders hflag hinner o ho hne)
        · exact List.mem_append_right _ (ih _ htail hnz lv hlv hpredlv o ho hne)
    · exfalso
      rcases List.mem_cons.1 hlv with rfl | hlv
      · exact hpred0 hpredlv
      · exact hpred0 (hhead lv hlv hpredlv)

/-! ### Lemmas about orders lists: erasing, requantifying -/

theorem eraseP_oid_any (x id : String) (hne : x ≠ id) (os : List Order) :
    (os.eraseP (fun o => o.order_id == x)).any (fun o => o.order_id == id) =
      os.any (fun o => o.order_id == id) := by
  induction os with
  | nil => simp
  | cons o os ih =>
    by_cases hx : o.order_id = x
    · rw [List.eraseP_cons_of_pos (by simp [hx])]
      have hfalse : (o.order_id == id) = false := beq_eq_false_iff_ne.2 (hx ▸ hne)
      simp [List.any_cons, hfalse]
    · rw [List.eraseP_cons_of_neg (by simp [hx])]
      simp [List.any_cons, ih]

theorem eraseP_oid_find? (x id : String) (hne : x ≠ id) (os : List Order) :
    (os.eraseP (fun o => o.order_id == x)).find? (fun o => o.order_id == id) =
      os.find? (fun o => o.order_id == id) := by
  induction os with
  | nil => simp
  | cons o os ih =>
    by_cases hx : o.order_id = x
    · rw [List.eraseP_cons_of_pos (by simp [hx])]
      have hfalse : (o.order_id == id) = false := beq_eq_false_iff_ne.2 (hx ▸ hne)
      rw [List.find?_cons_of_neg _ (by simp [hfalse])]
    · rw [List.eraseP_cons_of_neg (by simp [hx])]
      by_cases hid : o.order_id = id
      · rw [List.find?_cons_of_pos _ (by simp [hid]), List.find?_cons_of_pos _ (by simp [hid])]
      · rw [List.find?_cons_of_neg _ (by simp [hid]), List.find?_cons_of_neg _ (by simp [hid])]
        exact ih

theorem setFirst_oid_any (x id : String) (hne : x ≠ id) (q : Nat) (os : List Order) :
    ((Level.setFirst os x q).any (fun o => o.order_id == id)) =
      os.any (fun o => o.order_id == id) := by
  induction os with
  | nil => simp [Level.setFirst]
  | cons o os ih =>
    simp only [Level.setFirst]
    by_cases hx : o.order_id = x
    · rw [if_pos (by simp [hx])]
      have hfalse : (o.order_id == id) = false := beq_eq_false_iff_ne.2 (hx ▸ hne)
      have hfalse' : ((x : String) == id) = false := beq_eq_false_iff_ne.2 hne
      simp [List.any_cons, hfalse, hfalse']
    · rw [if_neg (by simp [hx])]
      simp [List.any_cons, ih]

theorem setFirst_oid_find? (x id : String) (hne : x ≠ id) (q : Nat) (os : List Order) :
    ((Level.setFirst os x q).find? (fun o => o.order_id == id)) =
      os.find? (fun o => o.order_id == id) := by
  induction os with
  | nil => simp [Level.setFirst]
  | cons o os ih =>
    simp only [Level.setFirst]
    by_cases hx : o.order_id = x
    · rw [if_pos (by simp [hx])]
      have hfalse : (o.order_id == id) = false := beq_eq_false_iff_ne.2 (hx ▸ hne)
      have hfalse' : ((x : String) == id) = false := beq_eq_false_iff_ne.2 hne
      rw [List.find?_cons_of_neg _ (by simp [hfalse']), List.find?_cons_of_neg _ (by simp [hfalse])]
    · rw [if_neg (by simp [hx])]
      by_cases hid : o.order_id = id
      · rw [List.find?_cons_of_pos _ (by simp [hid]), List.find?_cons_of_pos _ (by simp [hid])]
      · rw [List.find?_cons_of_neg _ (by simp [hid]), List.find?_cons_of_neg _ (by simp [hid])]
        exact ih

/-! ### Lemmas about levels untouched orders -/

theorem Level.cancel_price (lv : Level) (x : String) : (lv.cancel x).price = lv.price := by
  unfold Level.cancel
  split <;> rfl

theorem Level.modify_qty_price (lv : Level) (x : String) (q : Nat) :
    (lv.modify_qty x q).price = lv.price := by
  unfold Level.modify_qty
  split <;> rfl

theorem Level.cancel_hasId_ne (lv : Level) (x id : String) (hne : x ≠ id) :
    (lv.cancel x).hasId id = lv.hasId id := by
  unfold Level.cancel
  split
  · rfl
  · simp only [Level.hasId]
    exact eraseP_oid_any x id hne lv.orders

theorem Level.cancel_find?_ne (lv : Level) (x id : String) (hne : x ≠ id) :
    (lv.cancel x).orders.find? (fun o => o.order_id == id) =
      lv.orders.find? (fun o => o.order_id == id) := by
  unfold Level.cancel
  split
  · rfl
  · exact eraseP_oid_find? x id hne lv.orders

theorem Level.modify_qty_hasId_ne (lv : Level) (x id : String) (hne : x ≠ id) (q : Nat) :
    (lv.modify_qty x q).hasId id = lv.hasId id := by
  unfold Level.modify_qty
  split
  · rfl
  · simp only [Level.hasId]
    exact setFirst_oid_any x id hne q lv.orders

theorem Level.modify_qty_find?_ne (lv : Level) (x id : String) (hne : x ≠ id) (q : Nat) :
    (lv.modify_qty x q).orders.find? (fun o => o.order_id == id) =
      lv.orders.find? (fun o => o.order_id == id) := by
  unfold Level.modify_qty
  split
  · rfl
  · exact setFirst_oid_find? x id hne q lv.orders

/-! ### `findInLevels` preservation under operations on other ids -/

theorem findInLevels_cons_neg (lv : Level) (ls : List Level) (id : String)
    (h : lv.hasId id = false) :
    findInLevels (lv :: ls) id = findInLevels ls id := by
  unfold findInLevels
  rw [List.find?_cons_of_neg _ (by simp [h])]

theorem findInLevels_cons_pos (lv : Level) (ls : List Level) (id : String)
    (h : lv.hasId id = true) :
    findInLevels (lv :: ls) id =
      match lv.orders.find? (fun o => o.order_id == id) with
      | some o => some (lv.price, o.qty)
      | none => none := by
  have hfind : List.find? (fun lv => lv.hasId id) (lv :: ls) = some lv :=
    List.find?_cons_of_pos _ h
  unfold findInLevels
  rw [hfind]

theorem findInLevels_cancel_ne (x id : String) (hne : x ≠ id) (ls : List Level) :
    findInLevels (cancelInLevels x ls) id = findInLevels ls id := by
  induction ls with
  | nil => rfl
  | cons lv ls ih =>
    simp only [cancelInLevels]
    split
    · rename_i hx
      split
      · rename_i hempty
        have h1 : lv.hasId id = false := by
          rw [← Level.cancel_hasId_ne lv x id hne]
          simp [Level.hasId, List.isEmpty_iff.1 hempty]
        rw [findInLevels_cons_neg _ _ _ h1]
      · rename_i hempty
        cases hid : lv.hasId id with
        | false =>
          rw [findInLevels_cons_neg _ _ _ ((Level.cancel_hasId_ne lv x id hne).trans hid),
            findInLevels_cons_neg _ _ _ hid]
        | true =>
          rw [findInLevels_cons_pos _ _ _ ((Level.cancel_hasId_ne lv x id hne).trans hid),
            findInLevels_cons_pos _ _ _ hid, Level.cancel_find?_ne lv x id hne,
            Level.cancel_price]
    · rename_i hx
      cases hid : lv.hasId id with
      | false => rw [findInLevels_cons_neg _ _ _ hid, findInLevels_cons_neg _ _ _ hid, ih]
      | true => rw [findInLevels_cons_pos _ _ _ hid, findInLevels_cons_pos _ _ _ hid]

theorem findInLevels_setQty_ne (x id : String) (hne : x ≠ id) (q : Nat) (ls : List Level) :
    findInLevels (setQtyInLevels x q ls) id = findInLevels ls id := by
  induction ls with
  | nil => rfl
  | cons lv ls ih =>
    simp only [setQtyInLevels]
    split
    · rename_i hx
      cases hid : lv.hasId id with
      | false =>
        rw [findInLevels_cons_neg _ _ _ ((Level.modify_qty_hasId_ne lv x id hne q).trans hid),
          findInLevels_cons_neg _ _ _ hid]
      | true =>
        rw [findInLevels_cons_pos _ _ _ ((Level.modify_qty_hasId_ne lv x id hne q).trans hid),
          findInLevels_cons_pos _ _ _ hid, Level.modify_qty_find?_ne lv x id hne q,
          Level.modify_qty_price]
    · rename_i hx
      cases hid : lv.hasId id with
      | false => rw [findInLevels_cons_neg _ _ _ hid, findInLevels_cons_neg _ _ _ hid, ih]
      | true => rw [findInLevels_cons_pos _ _ _ hid, findInLevels_cons_pos _ _ _ hid]

theorem Book.cancel_findOrder_ne (b : Book) (x id : String) (hne : x ≠ id) :
    (b.cancel x).findOrder id = b.findOrder id := by
  unfold Book.cancel
  split
  · show Book.findOrder ⟨cancelInLevels x b.buy_levels, b.sell_levels⟩ id = _
    unfold Book.findOrder
    rw [show (Book.mk (cancelInLevels x b.buy_levels) b.sell_levels).buy_levels =
      cancelInLevels x b.buy_levels from rfl]
    rw [findInLevels_cancel_ne x id hne]
  · split
    · show Book.findOrder ⟨b.buy_levels, cancelInLevels x b.sell_levels⟩ id = _
      unfold Book.findOrder
      rw [show (Book.mk b.buy_levels (cancelInLevels x b.sell_levels)).sell_levels =
        cancelInLevels x b.sell_levels from rfl]
      rw [findInLevels_cancel_ne x id hne]
    · rfl

theorem Book.setQty_findOrder_ne (b : Book) (x id : String) (hne : x ≠ id) (q : Nat) :
    (b.setQty x q).findOrder id = b.findOrder id := by
  unfold Book.setQty
  split
  · show Book.findOrder ⟨setQtyInLevels x q b.buy_levels, b.sell_levels⟩ id = _
    unfold Book.findOrder
    rw [show (Book.mk (setQtyInLevels x q b.buy_levels) b.sell_levels).buy_levels =
      setQtyInLevels x q b.buy_levels from rfl]
    rw [findInLevels_setQty_ne x id hne q]
  · split
    · show Book.findOrder ⟨b.buy_levels, setQtyInLevels x q b.sell_levels⟩ id = _
      unfold Book.findOrder
      rw [show (Book.mk b.buy_levels (setQtyInLevels x q b.sell_levels)).sell_levels =
        setQtyInLevels x q b.sell_levels from rfl]
      rw [findInLevels_setQty_ne x id hne q]
    · rfl

/-! ### `fillOrders` lemmas -/

theorem fillOrders_findOrder_ne (ts : List Trade) (b : Book) (id : String)
    (h : ∀ t ∈ ts, t.passive_id ≠ id) :
    (Book.fillOrders b ts).1.findOrder id = b.findOrder id := by
  induction ts generalizing b with
  | nil => rfl
  | cons t ts ih =>
    have hpid : t.passive_id ≠ id := h t (List.mem_cons_self _ _)
    have hrest : ∀ u ∈ ts, u.passive_id ≠ id := fun u hu => h u (List.mem_cons_of_mem _ hu)
    simp only [Book.fillOrders]
    split
    · rw [ih _ hrest, Book.cancel_findOrder_ne _ _ _ hpid]
    · rw [ih _ hrest, Book.setQty_findOrder_ne _ _ _ hpid]

theorem fillOrders_pairs (ts : List Trade) (b : Book) :
    (Book.fillOrders b ts).2.map (fun t => (t.passive_price, t.passive_id)) =
      ts.map (fun t => (t.passive_price, t.passive_id)) := by
  induction ts generalizing b with
  | nil => rfl
  | cons t ts ih =>
    simp only [Book.fillOrders]
    split
    · simp [ih]
    · simp [ih]

theorem fillOrders_passive_ids (ts : List Trade) (b : Book) :
    (Book.fillOrders b ts).2.map Trade.passive_id = ts.map Trade.passive_id := by
  induction ts generalizing b with
  | nil => rfl
  | cons t ts ih =>
    simp only [Book.fillOrders]
    split
    · simp [ih]
    · simp [ih]

/-! ### Sublist and flattening helpers -/

theorem sublist_flatMap {α β : Type} (f : α → List β) {l₁ l₂ : List α}
    (h : l₁.Sublist l₂) : (l₁.flatMap f).Sublist (l₂.flatMap f) := by
  induction h with
  | slnil => exact List.Sublist.refl _
  | cons a _ ih =>
    refine ih.trans ?_
    rw [List.flatMap_cons]
    exact List.sublist_append_right _ _
  | cons₂ a _ ih => simpa using List.Sublist.append (List.Sublist.refl (f a)) ih

theorem walkKeys_proj (ls : List Level) :
    (walkKeys ls).map (fun k => k.2.1) = flatIds ls := by
  simp only [walkKeys, flatIds, List.map_flatMap, List.map_map, oids]
  rfl

theorem flatIds_reverse_perm (ls : List Level) :
    (flatIds ls.reverse).Perm (flatIds ls) := by
  induction ls with
  | nil => exact List.Perm.refl _
  | cons lv ls ih =>
    simp only [flatIds, List.reverse_cons, List.flatMap_append, List.flatMap_cons,
      List.flatMap_nil, List.append_nil] at ih ⊢
    exact (ih.append_right (oids lv)).trans List.perm_append_comm

theorem matchWalk_keys_sublist (id : String) (p : Nat) (pred : Nat → Nat → Bool)
    (q : Nat) (ls : List Level) :
    ((matchWalk id p pred q ls).2.map
        (fun t => (t.passive_price, t.passive_id, t.passive_qty))).Sublist (walkKeys ls) :=
  (matchWalk_sublist id p pred q ls).trans
    (sublist_flatMap _ (List.takeWhile_sublist _))

theorem matchWalk_pid_nodup (id : String) (p : Nat) (pred : Nat → Nat → Bool)
    (q : Nat) (ls : List Level) (h : (flatIds ls).Nodup) :
    ((matchWalk id p pred q ls).2.map Trade.passive_id).Nodup := by
  have h1 := (matchWalk_keys_sublist id p pred q ls).map (fun k => k.2.1)
  rw [walkKeys_proj] at h1
  have h2 : ((matchWalk id p pred q ls).2.map
      (fun t => (t.passive_price, t.passive_id, t.passive_qty))).map (fun k => k.2.1) =
      (matchWalk id p pred q ls).2.map Trade.passive_id := by
    rw [List.map_map]
    rfl
  rw [h2] at h1
  exact h.sublist h1

/-- C3: in every `Book::match` call, a resting order whose identifier equals
the aggressive id is skipped: no emitted trade pairs it as the passive order,
and the order is neither removed from the book nor altered — its side, level
price and remaining quantity read back unchanged after the call. -/
theorem C3_self_match_prevention (b : Book) (side : Side) (id : String) (q p : Nat) :
    (∀ t ∈ (b.matchOrder side id q p).2.1, t.passive_id ≠ id) ∧
    (b.matchOrder side id q p).1.findOrder id = b.findOrder id := by
  cases side with
  | Buy =>
    have hraw : ∀ t ∈ (matchWalk id p (fun op lp => decide (op ≥ lp)) q
        b.sell_levels.reverse).2, t.passive_id ≠ id := fun t ht =>
      (matchWalk_shape id p _ q b.sell_levels.reverse t ht).2.2.2.1
    constructor
    · intro t ht
      have hmem : t.passive_id ∈ (Book.fillOrders b (matchWalk id p
          (fun op lp => decide (op ≥ lp)) q b.sell_levels.reverse).2).2.map Trade.passive_id :=
        List.mem_map_of_mem _ ht
      rw [fillOrders_passive_ids] at hmem
      obtain ⟨t', ht', hpid⟩ := List.mem_map.1 hmem
      rw [← hpid]
      exact hraw t' ht'
    · exact fillOrders_findOrder_ne _ _ _ hraw
  | Sell =>
    have hraw : ∀ t ∈ (matchWalk id p (fun op lp => decide (op ≤ lp)) q
        b.buy_levels).2, t.passive_id ≠ id := fun t ht =>
      (matchWalk_shape id p _ q b.buy_levels t ht).2.2.2.1
    constructor
    · intro t ht
      have hmem : t.passive_id ∈ (Book.fillOrders b (matchWalk id p
          (fun op lp => decide (op ≤ lp)) q b.buy_levels).2).2.map Trade.passive_id :=
        List.mem_map_of_mem _ ht
      rw [fillOrders_passive_ids] at hmem
      obtain ⟨t', ht', hpid⟩ := List.mem_map.1 hmem
      rw [← hpid]
      exact hraw t' ht'
    · exact fillOrders_findOrder_ne _ _ _ hraw
  | Invalid =>
    exact ⟨fun t ht => absurd ht (by simp [Book.matchOrder, Book.fillOrders]), rfl⟩

theorem C3_witness :
    ((⟨1000, "a", 5, 1000, "x", 5⟩ : Trade).passive_id ≠ "x") ∧
    ((Book.mk [] [⟨1000, 10, [⟨"a", 5⟩, ⟨"x", 5⟩]⟩]).matchOrder .Buy "x" 10 1000).1.findOrder "x" =
      (Book.mk [] [⟨1000, 10, [⟨"a", 5⟩, ⟨"x", 5⟩]⟩]).findOrder "x" :=
  ⟨(C3_self_match_prevention (Book.mk [] [⟨1000, 10, [⟨"a", 5⟩, ⟨"x", 5⟩]⟩]) .Buy "x" 10 1000).1
      ⟨1000, "a", 5, 1000, "x", 5⟩ (by decide),
   (C3_self_match_prevention (Book.mk [] [⟨1000, 10, [⟨"a", 5⟩, ⟨"x", 5⟩]⟩]) .Buy "x" 10 1000).2⟩

/-- C10: in every call to the `Book::match` walk, each resting passive order
is paired in at most one emitted trade (the passive ids of the trades are
distinct whenever the walked side's resting ids are distinct), the recorded
passive (price, id, qty) triples are drawn in walk order from the actual
resting orders, and each trade's fill qty `min(leaves, passive.qty)` never
exceeds the recorded passive qty, so the `passive.qty - fill` subtraction in
`Book::fill_orders` is exact over the integers (never underflows). -/
theorem C10_single_fill_no_underflow (b : Book) (id : String) (q p : Nat) :
    (∀ t ∈ (matchWalk id p (fun op lp => decide (op ≥ lp)) q b.sell_levels.reverse).2,
        t.aggressive_qty ≤ t.passive_qty ∧
        ((t.passive_qty : Int) - (t.aggressive_qty : Int) =
          ((t.passive_qty - t.aggressive_qty : Nat) : Int))) ∧
    ((flatIds b.sell_levels).Nodup →
      ((matchWalk id p (fun op lp => decide (op ≥ lp)) q b.sell_levels.reverse).2.map
        Trade.passive_id).Nodup) ∧
    (((matchWalk id p (fun op lp => decide (op ≥ lp)) q b.sell_levels.reverse).2.map
        (fun t => (t.passive_price, t.passive_id, t.passive_qty))).Sublist
      (walkKeys b.sell_levels.reverse)) ∧
    (∀ t ∈ (matchWalk id p (fun op lp => decide (op ≤ lp)) q b.buy_levels).2,
        t.aggressive_qty ≤ t.passive_qty ∧
        ((t.passive_qty : Int) - (t.aggressive_qty : Int) =
          ((t.passive_qty - t.aggressive_qty : Nat) : Int))) ∧
    ((flatIds b.buy_levels).Nodup →
      ((matchWalk id p (fun op lp => decide (op ≤ lp)) q b.buy_levels).2.map
        Trade.passive_id).Nodup) ∧
    (((matchWalk id p (fun op lp => decide (op ≤ lp)) q b.buy_levels).2.map
        (fun t => (t.passive_price, t.passive_id, t.passive_qty))).Sublist
      (walkKeys b.buy_levels)) := by
  refine ⟨?_, ?_, ?_, ?_, ?_, ?_⟩
  · intro t ht
    have hle := (matchWalk_shape id p _ q b.sell_levels.reverse t ht).2.2.2.2
    exact ⟨hle, by omega⟩
  · intro h
    exact matchWalk_pid_nodup id p _ q b.sell_levels.reverse
      ((flatIds_reverse_perm b.sell_levels).nodup_iff.2 h)
  · exact matchWalk_keys_sublist id p _ q b.sell_levels.reverse
  · intro t ht
    have hle := (matchWalk_shape id p _ q b.buy_levels t ht).2.2.2.2
    exact ⟨hle, by omega⟩
  · exact matchWalk_pid_nodup id p _ q b.buy_levels
  · exact matchWalk_keys_sublist id p _ q b.buy_levels

theorem C10_witness :
    ((⟨1000, "a", 5, 1000, "x", 5⟩ : Trade).aggressive_qty ≤
        (⟨1000, "a", 5, 1000, "x", 5⟩ : Trade).passive_qty ∧
      (((⟨1000, "a", 5, 1000, "x", 5⟩ : Trade).passive_qty : Int) -
          ((⟨1000, "a", 5, 1000, "x", 5⟩ : Trade).aggressive_qty : Int) =
        ((((⟨1000, "a", 5, 1000, "x", 5⟩ : Trade).passive_qty -
          (⟨1000, "a", 5, 1000, "x", 5⟩ : Trade).aggressive_qty : Nat)) : Int))) ∧
    ((matchWalk "x" 1000 (fun op lp => decide (op ≥ lp)) 7
        (Book.mk [] [⟨1000, 10, [⟨"a", 5⟩, ⟨"c", 5⟩]⟩]).sell_levels.reverse).2.map
      Trade.passive_id).Nodup :=
  ⟨(C10_single_fill_no_underflow (Book.mk [] [⟨1000, 10, [⟨"a", 5⟩, ⟨"c", 5⟩]⟩])
      "x" 7 1000).1 ⟨1000, "a", 5, 1000, "x", 5⟩ (by decide),
   (C10_single_fill_no_underflow (Book.mk [] [⟨1000, 10, [⟨"a", 5⟩, ⟨"c", 5⟩]⟩])
      "x" 7 1000).2.1 (by decide)⟩

/-! ### Price ordering of emitted trades -/

theorem pairwise_const {α : Type} (S : Nat → Nat → Prop) (c : Nat) (hS : S c c)
    (l : List α) : (l.map (fun _ => c)).Pairwise S := by
  induction l with
  | nil => simp
  | cons a l ih =>
    rw [List.map_cons, List.pairwise_cons]
    refine ⟨?_, ih⟩
    intro b hb
    obtain ⟨x, _, rfl⟩ := List.mem_map.1 hb
    exact hS

theorem walkPairs_fst_mem (ls : List Level) (x : Nat)
    (hx : x ∈ (walkPairs ls).map Prod.fst) : ∃ lv ∈ ls, x = lv.price := by
  obtain ⟨k, hk, rfl⟩ := List.mem_map.1 hx
  obtain ⟨lv, hlv, hkin⟩ := List.mem_flatMap.1 hk
  obtain ⟨o, ho, rfl⟩ := List.mem_map.1 hkin
  exact ⟨lv, hlv, rfl⟩

theorem walkPairs_fst_pairwise (R S : Nat → Nat → Prop) (hRS : ∀ a b, R a b → S a b)
    (hS : ∀ a, S a a) (ls : List Level) (h : (pricesOf ls).Pairwise R) :
    ((walkPairs ls).map Prod.fst).Pairwise S := by
  induction ls with
  | nil => simp [walkPairs]
  | cons lv rest ih =>
    simp only [pricesOf, List.map_cons] at h
    rcases List.pairwise_cons.1 h with ⟨hhead, htail⟩
    simp only [walkPairs, List.flatMap_cons, List.map_append]
    rw [List.pairwise_append]
    refine ⟨?_, ih htail, ?_⟩
    · rw [List.map_map]
      exact pairwise_const S lv.price (hS _) lv.orders
    · intro a ha b hb
      rw [List.map_map] at ha
      obtain ⟨o, _, rfl⟩ := List.mem_map.1 ha
      obtain ⟨lv', hlv', rfl⟩ := walkPairs_fst_mem rest b hb
      exact hRS _ _ (hhead lv'.price (List.mem_map_of_mem Level.price hlv'))

theorem walkKeys_pairs_proj (ls : List Level) :
    (walkKeys ls).map (fun k => (k.1, k.2.1)) = walkPairs ls := by
  simp only [walkKeys, walkPairs, List.map_flatMap, List.map_map]
  rfl

/-- The conjunction of ordering facts for one side of the walk followed by
the fills: the normalized trades' (price, id) pairs are a sublist of the walk
order restricted to the compatible prefix, their prices are monotone in the
walk direction, and every trade is price-compatible. -/
theorem matchFill_priority (b : Book) (id : String) (q p : Nat)
    (pred : Nat → Nat → Bool) (ls : List Level) (R S : Nat → Nat → Prop)
    (hRS : ∀ a b, R a b → S a b) (hS : ∀ a, S a a)
    (hsorted : (pricesOf ls).Pairwise R) :
    (((Book.fillOrders b (matchWalk id p pred q ls).2).2.map
        (fun t => (t.passive_price, t.passive_id))).Sublist
      (walkPairs (ls.takeWhile (fun lv => pred p lv.price)))) ∧
    (((Book.fillOrders b (matchWalk id p pred q ls).2).2.map
        Trade.passive_price).Pairwise S) ∧
    (∀ t ∈ (Book.fillOrders b (matchWalk id p pred q ls).2).2,
      pred p t.passive_price = true) := by
  have hpairs : (Book.fillOrders b (matchWalk id p pred q ls).2).2.map
      (fun t => (t.passive_price, t.passive_id)) =
      (matchWalk id p pred q ls).2.map (fun t => (t.passive_price, t.passive_id)) :=
    fillOrders_pairs _ _
  have hsub : ((matchWalk id p pred q ls).2.map
      (fun t => (t.passive_price, t.passive_id))).Sublist
      (walkPairs (ls.takeWhile (fun lv => pred p lv.price))) := by
    have h1 := (matchWalk_sublist id p pred q ls).map (fun k => (k.1, k.2.1))
    rw [walkKeys_pairs_proj, List.map_map] at h1
    exact h1
  refine ⟨hpairs ▸ hsub, ?_, ?_⟩
  · have hsorted' : (pricesOf (ls.takeWhile (fun lv => pred p lv.price))).Pairwise R := by
      refine hsorted.sublist ?_
      exact (List.takeWhile_sublist _).map Level.price
    have h2 := walkPairs_fst_pairwise R S hRS hS _ hsorted'
    have h3 := (hpairs ▸ hsub).map Prod.fst
    have h4 : ((Book.fillOrders b (matchWalk id p pred q ls).2).2.map
        (fun t => (t.passive_price, t.passive_id))).map Prod.fst =
        (Book.fillOrders b (matchWalk id p pred q ls).2).2.map Trade.passive_price := by
      rw [List.map_map]
      rfl
    rw [h4] at h3
    exact h2.sublist h3
  · intro t ht
    have hmem : (t.passive_price, t.passive_id) ∈
        (matchWalk id p pred q ls).2.map (fun t => (t.passive_price, t.passive_id)) := by
      rw [← hpairs]
      exact List.mem_map_of_mem _ ht
    obtain ⟨t', ht', heq⟩ := List.mem_map.1 hmem
    have hshape := (matchWalk_shape id p pred q ls t' ht').2.2.1
    have hprice : t'.passive_price = t.passive_price := congrArg Prod.fst heq
    rw [← hprice]
    exact hshape

/-- C4: within one `Book::match` call the emitted trades respect price then
time priority: a Buy aggressor visits sell levels in ascending price order
and a Sell aggressor visits buy levels in descending order, trades within one
level follow the level's FIFO queue (the (price, id) pairs of the trades are
a sublist of the walk order), the trade prices are monotone accordingly, and
only levels in the compatible prefix — the walk stops at the first level
whose price is incompatible with the aggressive price — produce trades. -/
theorem C4_price_time_priority (b : Book) (id : String) (q p : Nat)
    (hs : (pricesOf b.sell_levels).Pairwise (· > ·))
    (hb : (pricesOf b.buy_levels).Pairwise (· > ·)) :
    (((b.matchOrder .Buy id q p).2.1.map (fun t => (t.passive_price, t.passive_id))).Sublist
        (walkPairs (b.sell_levels.reverse.takeWhile (fun lv => decide (p ≥ lv.price)))) ∧
      ((b.matchOrder .Buy id q p).2.1.map Trade.passive_price).Pairwise (· ≤ ·) ∧
      (∀ t ∈ (b.matchOrder .Buy id q p).2.1, t.passive_price ≤ p)) ∧
    (((b.matchOrder .Sell id q p).2.1.map (fun t => (t.passive_price, t.passive_id))).Sublist
        (walkPairs (b.buy_levels.takeWhile (fun lv => decide (p ≤ lv.price)))) ∧
      ((b.matchOrder .Sell id q p).2.1.map Trade.passive_price).Pairwise (· ≥ ·) ∧
      (∀ t ∈ (b.matchOrder .Sell id q p).2.1, p ≤ t.passive_price)) := by
  constructor
  · have hrev : (pricesOf b.sell_levels.reverse).Pairwise (· < ·) := by
      have : pricesOf b.sell_levels.reverse = (pricesOf b.sell_levels).reverse := by
        simp [pricesOf]
      rw [this, List.pairwise_reverse]
      exact hs
    have h := matchFill_priority b id q p (fun op lp => decide (op ≥ lp))
      b.sell_levels.reverse (· < ·) (· ≤ ·) (fun a b h => le_of_lt h) (fun a => le_refl a) hrev
    refine ⟨h.1, h.2.1, ?_⟩
    intro t ht
    have := h.2.2 t ht
    exact le_of_eq_of_le rfl (by simpa using this)
  · have h := matchFill_priority b id q p (fun op lp => decide (op ≤ lp))
      b.buy_levels (· > ·) (· ≥ ·) (fun a b h => le_of_lt h) (fun a => le_refl a) hb
    refine ⟨h.1, h.2.1, ?_⟩
    intro t ht
    have := h.2.2 t ht
    simpa using this

theorem C4_witness :
    (((Book.mk [⟨1000, 10, [⟨"b1", 10⟩]⟩] [⟨1100, 3, [⟨"s2", 3⟩]⟩,
        ⟨1000, 4, [⟨"s0", 2⟩, ⟨"s1", 2⟩]⟩]).matchOrder .Buy "x" 9 1100).2.1.map
      (fun t => (t.passive_price, t.passive_id))).Sublist
      (walkPairs ((Book.mk [⟨1000, 10, [⟨"b1", 10⟩]⟩] [⟨1100, 3, [⟨"s2", 3⟩]⟩,
        ⟨1000, 4, [⟨"s0", 2⟩, ⟨"s1", 2⟩]⟩]).sell_levels.reverse.takeWhile
          (fun lv => decide (1100 ≥ lv.price)))) ∧
    (((Book.mk [⟨1000, 10, [⟨"b1", 10⟩]⟩] [⟨1100, 3, [⟨"s2", 3⟩]⟩,
        ⟨1000, 4, [⟨"s0", 2⟩, ⟨"s1", 2⟩]⟩]).matchOrder .Buy "x" 9 1100).2.1.map
      Trade.passive_price).Pairwise (· ≤ ·) :=
  ⟨((C4_price_time_priority (Book.mk [⟨1000, 10, [⟨"b1", 10⟩]⟩] [⟨1100, 3, [⟨"s2", 3⟩]⟩,
      ⟨1000, 4, [⟨"s0", 2⟩, ⟨"s1", 2⟩]⟩]) "x" 9 1100 (by decide) (by decide)).1).1,
   ((C4_price_time_priority (Book.mk [⟨1000, 10, [⟨"b1", 10⟩]⟩] [⟨1100, 3, [⟨"s2", 3⟩]⟩,
      ⟨1000, 4, [⟨"s0", 2⟩, ⟨"s1", 2⟩]⟩]) "x" 9 1100 (by decide) (by decide)).1).2.1⟩

/-! ### Id-set lemmas for the book operations -/

theorem setFirst_map_oid (x : String) (q : Nat) (os : List Order) :
    (Level.setFirst os x q).map Order.order_id = os.map Order.order_id := by
  induction os with
  | nil => rfl
  | cons o os ih =>
    simp only [Level.setFirst]
    by_cases hx : o.order_id = x
    · rw [if_pos (by simp [hx])]
      simp [hx]
    · rw [if_neg (by simp [hx])]
      simp [ih]

theorem oids_cancel_sublist (lv : Level) (x : String) :
    (oids (lv.cancel x)).Sublist (oids lv) := by
  unfold Level.cancel
  split
  · exact List.Sublist.refl _
  · exact (List.eraseP_sublist _).map _

theorem oids_modify_qty (lv : Level) (x : String) (q : Nat) :
    oids (lv.modify_qty x q) = oids lv := by
  unfold Level.modify_qty
  split
  · rfl
  · exact setFirst_map_oid x q lv.orders

theorem flatIds_cancel_sublist (x : String) (ls : List Level) :
    (flatIds (cancelInLevels x ls)).Sublist (flatIds ls) := by
  induction ls with
  | nil => exact List.Sublist.refl _
  | cons lv ls ih =>
    simp only [cancelInLevels]
    split
    · split
      · simp only [flatIds, List.flatMap_cons]
        exact List.sublist_append_right _ _
      · simp only [flatIds, List.flatMap_cons]
        exact (oids_cancel_sublist lv x).append (List.Sublist.refl _)
    · simp only [flatIds, List.flatMap_cons]
      exact (List.Sublist.refl _).append ih

theorem flatIds_setQty (x : String) (q : Nat) (ls : List Level) :
    flatIds (setQtyInLevels x q ls) = flatIds ls := by
  induction ls with
  | nil => rfl
  | cons lv ls ih =>
    simp only [setQtyInLevels]
    split
    · simp only [flatIds, List.flatMap_cons, oids_modify_qty]
    · simp only [flatIds, List.flatMap_cons] at ih ⊢
      rw [ih]

theorem allIds_cancel_sublist (b : Book) (x : String) :
    ((b.cancel x).allIds).Sublist b.allIds := by
  unfold Book.cancel
  split
  · exact (flatIds_cancel_sublist x b.buy_levels).append (List.Sublist.refl _)
  · split
    · exact (List.Sublist.refl _).append (flatIds_cancel_sublist x b.sell_levels)
    · exact List.Sublist.refl _

theorem allIds_setQty (b : Book) (x : String) (q : Nat) :
    (b.setQty x q).allIds = b.allIds := by
  unfold Book.setQty
  split
  · show flatIds (setQtyInLevels x q b.buy_levels) ++ flatIds b.sell_levels = _
    rw [flatIds_setQty]
    rfl
  · split
    · show flatIds b.buy_levels ++ flatIds (setQtyInLevels x q b.sell_levels) = _
      rw [flatIds_setQty]
      rfl
    · rfl

theorem fillOrders_allIds_sublist (ts : List Trade) (b : Book) :
    ((Book.fillOrders b ts).1.allIds).Sublist b.allIds := by
  induction ts generalizing b with
  | nil => exact List.Sublist.refl _
  | cons t ts ih =>
    simp only [Book.fillOrders]
    split
    · exact (ih _).trans (allIds_cancel_sublist b t.passive_id)
    · have heq := allIds_setQty b t.passive_id (t.passive_qty - t.aggressive_qty)
      exact heq ▸ ih _

theorem matchOrder_allIds_sublist (b : Book) (side : Side) (id : String) (q p : Nat) :
    ((b.matchOrder side id q p).1.allIds).Sublist b.allIds := by
  cases side with
  | Buy => exact fillOrders_allIds_sublist _ b
  | Sell => exact fillOrders_allIds_sublist _ b
  | Invalid => exact List.Sublist.refl _

theorem hasId_iff_mem (lv : Level) (id : String) :
    lv.hasId id = true ↔ id ∈ oids lv := by
  simp only [Level.hasId, List.any_eq_true, oids, List.mem_map]
  constructor
  · rintro ⟨o, ho, heq⟩
    exact ⟨o, ho, by simpa using heq.symm⟩
  · rintro ⟨o, ho, heq⟩
    exact ⟨o, ho, by simp [heq]⟩

theorem levelsHasId_iff_mem (ls : List Level) (id : String) :
    levelsHasId ls id = true ↔ id ∈ flatIds ls := by
  simp only [levelsHasId, List.any_eq_true, flatIds, List.mem_flatMap]
  constructor
  · rintro ⟨lv, hlv, h⟩
    exact ⟨lv, hlv, (hasId_iff_mem lv id).1 h⟩
  · rintro ⟨lv, hlv, h⟩
    exact ⟨lv, hlv, (hasId_iff_mem lv id).2 h⟩

theorem containsId_iff_mem (b : Book) (id : String) :
    b.containsId id = true ↔ id ∈ b.allIds := by
  simp only [Book.containsId, Bool.or_eq_true, levelsHasId_iff_mem, Book.allIds,
    List.mem_append]

/-- C5: for every incoming BUY or SELL order the engine matches first; if the
leaves qty is zero nothing more happens; a GFD residue is added to the book
at the order's price on its side; an IOC residue is discarded — the book stays
exactly the matched book, no id ever rests from an IOC order. -/
theorem C5_match_then_rest (b : Book) (side : Side) (tif : TIF) (id : String) (q p : Nat) :
    ((b.matchOrder side id q p).2.2 = 0 →
      handleAdd b side tif id q p =
        ((b.matchOrder side id q p).1, (b.matchOrder side id q p).2.1)) ∧
    ((b.matchOrder side id q p).2.2 ≠ 0 → tif = .GFD →
      handleAdd b side tif id q p =
        ((b.matchOrder side id q p).1.add side id (b.matchOrder side id q p).2.2 p,
         (b.matchOrder side id q p).2.1)) ∧
    (tif = .IOC →
      (handleAdd b side tif id q p).1 = (b.matchOrder side id q p).1 ∧
      ((handleAdd b side tif id q p).1.allIds).Sublist b.allIds ∧
      (b.containsId id = false → (handleAdd b side tif id q p).1.containsId id = false)) := by
  refine ⟨?_, ?_, ?_⟩
  · intro h0
    simp [handleAdd, h0]
  · intro hnz htif
    subst htif
    simp [handleAdd, hnz]
  · intro htif
    subst htif
    have hbook : (handleAdd b side .IOC id q p).1 = (b.matchOrder side id q p).1 := by
      by_cases h0 : (b.matchOrder side id q p).2.2 = 0
      · simp [handleAdd, h0]
      · simp [handleAdd, h0]
    refine ⟨hbook, ?_, ?_⟩
    · rw [hbook]
      exact matchOrder_allIds_sublist b side id q p
    · intro hc
      rw [hbook]
      have hnotmem : id ∉ b.allIds := fun hmem =>
        by simp [(containsId_iff_mem b id).2 hmem] at hc
      have hsub := matchOrder_allIds_sublist b side id q p
      cases hres : (b.matchOrder side id q p).1.containsId id with
      | false => rfl
      | true =>
        exact absurd (hsub.mem ((containsId_iff_mem _ id).1 hres)) hnotmem

theorem C5_witness :
    (handleAdd (Book.mk [] [⟨1000, 10, [⟨"a", 10⟩]⟩]) .Buy .GFD "x" 15 1000 =
      (((Book.mk [] [⟨1000, 10, [⟨"a", 10⟩]⟩]).matchOrder .Buy "x" 15 1000).1.add .Buy "x"
        ((Book.mk [] [⟨1000, 10, [⟨"a", 10⟩]⟩]).matchOrder .Buy "x" 15 1000).2.2 1000,
       ((Book.mk [] [⟨1000, 10, [⟨"a", 10⟩]⟩]).matchOrder .Buy "x" 15 1000).2.1)) ∧
    ((handleAdd (Book.mk [] [⟨1000, 10, [⟨"a", 10⟩]⟩]) .Buy .IOC "x" 15 1000).1.containsId "x" =
      false) :=
  ⟨(C5_match_then_rest (Book.mk [] [⟨1000, 10, [⟨"a", 10⟩]⟩]) .Buy .GFD "x" 15 1000).2.1
     (by decide) rfl,
   ((C5_match_then_rest (Book.mk [] [⟨1000, 10, [⟨"a", 10⟩]⟩]) .Buy .IOC "x" 15 1000).2.2
     rfl).2.2 (by decide)⟩

/-! ### Cancellation removes, requantification keeps positions -/

theorem eraseP_oid_not_mem (x : String) (os : List Order)
    (h : (os.map Order.order_id).Nodup) :
    x ∉ (os.eraseP (fun o => o.order_id == x)).map Order.order_id := by
  induction os with
  | nil => simp
  | cons o os ih =>
    rw [List.map_cons, List.nodup_cons] at h
    by_cases hx : o.order_id = x
    · rw [List.eraseP_cons_of_pos (by simp [hx])]
      rw [← hx]
      exact h.1
    · rw [List.eraseP_cons_of_neg (by simp [hx])]
      rw [List.map_cons, List.mem_cons]
      rintro (rfl | hmem)
      · exact hx rfl
      · exact ih h.2 hmem

theorem Level.cancel_orders_of_hasId (lv : Level) (x : String) (h : lv.hasId x = true) :
    (lv.cancel x).orders = lv.orders.eraseP (fun o => o.order_id == x) := by
  unfold Level.cancel
  cases hf : lv.orders.find? (fun o => o.order_id == x) with
  | some o => rfl
  | none =>
    exfalso
    rw [List.find?_eq_none] at hf
    obtain ⟨o, ho, hp⟩ := List.any_eq_true.1 h
    exact hf o ho hp

theorem flatIds_cancel_not_mem (x : String) (ls : List Level)
    (h : (flatIds ls).Nodup) : x ∉ flatIds (cancelInLevels x ls) := by
  induction ls with
  | nil => simp [cancelInLevels, flatIds]
  | cons lv ls ih =>
    simp only [flatIds, List.flatMap_cons] at h
    rw [List.nodup_append] at h
    obtain ⟨hlv, hrest, hdisj⟩ := h
    have hlv' : (oids lv).Nodup := hlv
    simp only [cancelInLevels]
    split
    · rename_i hx
      split
      · intro hmem
        exact hdisj ((hasId_iff_mem lv x).1 hx) hmem
      · simp only [flatIds, List.flatMap_cons, List.mem_append]
        rintro (hmem | hmem)
        · have horders := Level.cancel_orders_of_hasId lv x hx
          have : x ∈ (lv.orders.eraseP (fun o => o.order_id == x)).map Order.order_id := by
            rw [← horders]
            exact hmem
          exact eraseP_oid_not_mem x lv.orders hlv' this
        · exact hdisj ((hasId_iff_mem lv x).1 hx) hmem
    · rename_i hx
      simp only [flatIds, List.flatMap_cons, List.mem_append]
      rintro (hmem | hmem)
      · exact hx ((hasId_iff_mem lv x).2 hmem)
      · exact ih hrest hmem

theorem Book.cancel_not_contains (b : Book) (x : String) (h : b.allIds.Nodup) :
    (b.cancel x).containsId x = false := by
  rw [Book.allIds, List.nodup_append] at h
  obtain ⟨hbuy, hsell, hdisj⟩ := h
  unfold Book.cancel
  split
  · rename_i hb
    show (levelsHasId (cancelInLevels x b.buy_levels) x || levelsHasId b.sell_levels x) = false
    have h1 : levelsHasId (cancelInLevels x b.buy_levels) x = false := by
      cases hc : levelsHasId (cancelInLevels x b.buy_levels) x with
      | false => rfl
      | true => exact absurd ((levelsHasId_iff_mem _ x).1 hc) (flatIds_cancel_not_mem x _ hbuy)
    have h2 : levelsHasId b.sell_levels x = false := by
      cases hc : levelsHasId b.sell_levels x with
      | false => rfl
      | true =>
        exact absurd ((levelsHasId_iff_mem _ x).1 hc)
          (hdisj ((levelsHasId_iff_mem _ x).1 hb))
    rw [h1, h2]
    rfl
  · split
    · rename_i hb hs
      show (levelsHasId b.buy_levels x || levelsHasId (cancelInLevels x b.sell_levels) x) = false
      have h1 : levelsHasId b.buy_levels x = false := by simpa using hb
      have h2 : levelsHasId (cancelInLevels x b.sell_levels) x = false := by
        cases hc : levelsHasId (cancelInLevels x b.sell_levels) x with
        | false => rfl
        | true => exact absurd ((levelsHasId_iff_mem _ x).1 hc) (flatIds_cancel_not_mem x _ hsell)
      rw [h1, h2]
      rfl
    · rename_i hb hs
      show (levelsHasId b.buy_levels x || levelsHasId b.sell_levels x) = false
      rw [(by simpa using hb : levelsHasId b.buy_levels x = false),
        (by simpa using hs : levelsHasId b.sell_levels x = false)]
      rfl

theorem cancelInLevels_nonempty (x : String) (ls : List Level)
    (h : ∀ lv ∈ ls, lv.orders ≠ []) :
    ∀ lv ∈ cancelInLevels x ls, lv.orders ≠ [] := by
  induction ls with
  | nil => simp [cancelInLevels]
  | cons lv ls ih =>
    simp only [cancelInLevels]
    split
    · split
      · exact fun lv' hlv' => h lv' (List.mem_cons_of_mem _ hlv')
      · rename_i hne
        intro lv' hlv'
        rcases List.mem_cons.1 hlv' with rfl | hlv'
        · intro hcon
          rw [hcon] at hne
          exact hne rfl
        · exact h lv' (List.mem_cons_of_mem _ hlv')
    · intro lv' hlv'
      rcases List.mem_cons.1 hlv' with rfl | hlv'
      · exact h lv' (List.mem_cons_self _ _)
      · exact ih (fun u hu => h u (List.mem_cons_of_mem _ hu)) lv' hlv'

theorem Book.cancel_nonempty (b : Book) (x : String)
    (h : ∀ lv ∈ b.buy_levels ++ b.sell_levels, lv.orders ≠ []) :
    ∀ lv ∈ (b.cancel x).buy_levels ++ (b.cancel x).sell_levels, lv.orders ≠ [] := by
  have hbuy : ∀ lv ∈ b.buy_levels, lv.orders ≠ [] :=
    fun lv hlv => h lv (List.mem_append_left _ hlv)
  have hsell : ∀ lv ∈ b.sell_levels, lv.orders ≠ [] :=
    fun lv hlv => h lv (List.mem_append_right _ hlv)
  unfold Book.cancel
  split
  · intro lv hlv
    rcases List.mem_append.1 hlv with h' | h'
    · exact cancelInLevels_nonempty x b.buy_levels hbuy lv h'
    · exact hsell lv h'
  · split
    · intro lv hlv
      rcases List.mem_append.1 hlv with h' | h'
      · exact hbuy lv h'
      · exact cancelInLevels_nonempty x b.sell_levels hsell lv h'
    · exact h

theorem setQtyInLevels_oids (x : String) (q : Nat) (ls : List Level) :
    (setQtyInLevels x q ls).map oids = ls.map oids := by
  induction ls with
  | nil => rfl
  | cons lv ls ih =>
    simp only [setQtyInLevels]
    split
    · simp [oids_modify_qty]
    · simp [ih]

theorem setQtyInLevels_prices (x : String) (q : Nat) (ls : List Level) :
    pricesOf (setQtyInLevels x q ls) = pricesOf ls := by
  induction ls with
  | nil => rfl
  | cons lv ls ih =>
    simp only [setQtyInLevels]
    split
    · simp [pricesOf, Level.modify_qty_price]
    · simp only [pricesOf, List.map_cons] at ih ⊢
      rw [ih]

theorem setFirst_find?_self (x : String) (q : Nat) (os : List Order)
    (h : os.any (fun o => o.order_id == x) = true) :
    (Level.setFirst os x q).find? (fun o => o.order_id == x) = some ⟨x, q⟩ := by
  induction os with
  | nil => simp at h
  | cons o os ih =>
    simp only [Level.setFirst]
    by_cases hx : o.order_id = x
    · rw [if_pos (by simp [hx])]
      exact List.find?_cons_of_pos _ (by simp)
    · rw [if_neg (by simp [hx])]
      rw [List.find?_cons_of_neg _ (by simp [hx])]
      refine ih ?_
      rcases List.any_eq_true.1 h with ⟨o', ho', hp⟩
      rcases List.mem_cons.1 ho' with rfl | ho'
      · exact absurd (by simpa using hp) hx
      · exact List.any_eq_true.2 ⟨o', ho', hp⟩

theorem Level.modify_qty_find?_self (lv : Level) (x : String) (q : Nat)
    (h : lv.hasId x = true) :
    (lv.modify_qty x q).orders.find? (fun o => o.order_id == x) = some ⟨x, q⟩ := by
  unfold Level.modify_qty
  cases hf : lv.orders.find? (fun o => o.order_id == x) with
  | none =>
    exfalso
    rw [List.find?_eq_none] at hf
    obtain ⟨o, ho, hp⟩ := List.any_eq_true.1 h
    exact hf o ho hp
  | some o => exact setFirst_find?_self x q lv.orders h

theorem any_oid_by_map (os : List Order) (x : String) :
    os.any (fun o => o.order_id == x) = (os.map Order.order_id).any (fun s => s == x) := by
  induction os with
  | nil => rfl
  | cons o os ih => simp [List.any_cons, ih]

theorem Level.modify_qty_hasId_self (lv : Level) (x : String) (q : Nat) :
    (lv.modify_qty x q).hasId x = lv.hasId x := by
  unfold Level.modify_qty
  cases hf : lv.orders.find? (fun o => o.order_id == x) with
  | none => rfl
  | some o =>
    show (Level.setFirst lv.orders x q).any (fun o => o.order_id == x) =
      lv.orders.any (fun o => o.order_id == x)
    rw [any_oid_by_map, any_oid_by_map, setFirst_map_oid]

theorem findInLevels_setQty_self (x : String) (q : Nat) (ls : List Level) :
    findInLevels (setQtyInLevels x q ls) x = (findInLevels ls x).map (fun r => (r.1, q)) := by
  induction ls with
  | nil => rfl
  | cons lv ls ih =>
    simp only [setQtyInLevels]
    split
    · rename_i hx
      rw [findInLevels_cons_pos _ _ _ ((Level.modify_qty_hasId_self lv x q).trans hx),
        findInLevels_cons_pos _ _ _ hx, Level.modify_qty_find?_self lv x q hx,
        Level.modify_qty_price]
      cases hf : lv.orders.find? (fun o => o.order_id == x) with
      | none =>
        exfalso
        rw [List.find?_eq_none] at hf
        obtain ⟨o, ho, hp⟩ := List.any_eq_true.1 hx
        exact hf o ho hp
      | some o => rfl
    · rename_i hx
      cases hid : lv.hasId x with
      | false => rw [findInLevels_cons_neg _ _ _ hid, findInLevels_cons_neg _ _ _ hid, ih]
      | true => exact absurd hid (by simp [hx])

theorem findInLevels_none_of_not_has (ls : List Level) (x : String)
    (h : levelsHasId ls x = false) : findInLevels ls x = none := by
  unfold findInLevels
  have hfind : ls.find? (fun lv => lv.hasId x) = none := by
    rw [List.find?_eq_none]
    intro lv hlv hcon
    have : levelsHasId ls x = true := List.any_eq_true.2 ⟨lv, hlv, hcon⟩
    rw [h] at this
    exact Bool.noConfusion this
  rw [hfind]

theorem findInLevels_isSome_of_has (ls : List Level) (x : String)
    (h : levelsHasId ls x = true) : ∃ pr qt, findInLevels ls x = some (pr, qt) := by
  unfold findInLevels
  cases hf : ls.find? (fun lv => lv.hasId x) with
  | none =>
    exfalso
    rw [List.find?_eq_none] at hf
    obtain ⟨lv, hlv, hp⟩ := List.any_eq_true.1 h
    exact hf lv hlv hp
  | some lv =>
    have hx : lv.hasId x = true := by
      have h' := List.find?_some hf
      exact h'
    cases hfo : lv.orders.find? (fun o => o.order_id == x) with
    | none =>
      exfalso
      rw [List.find?_eq_none] at hfo
      obtain ⟨o, ho, hp⟩ := List.any_eq_true.1 hx
      exact hfo o ho hp
    | some o =>
      refine ⟨lv.price, o.qty, ?_⟩
      show (match lv.orders.find? (fun o => o.order_id == x) with
        | some o => some (lv.price, o.qty)
        | none => none) = some (lv.price, o.qty)
      rw [hfo]

theorem Book.setQty_findOrder_self (b : Book) (x : String) (q : Nat) :
    (b.setQty x q).findOrder x = (b.findOrder x).map (fun r => (r.1, r.2.1, q)) := by
  unfold Book.setQty
  split
  · rename_i hb
    obtain ⟨pr, qt, hsome⟩ := findInLevels_isSome_of_has b.buy_levels x hb
    show Book.findOrder ⟨setQtyInLevels x q b.buy_levels, b.sell_levels⟩ x = _
    unfold Book.findOrder
    rw [show (Book.mk (setQtyInLevels x q b.buy_levels) b.sell_levels).buy_levels =
      setQtyInLevels x q b.buy_levels from rfl]
    rw [findInLevels_setQty_self, hsome]
    rfl
  · split
    · rename_i hb hs
      have hbn : findInLevels b.buy_levels x = none :=
        findInLevels_none_of_not_has b.buy_levels x (by simpa using hb)
      obtain ⟨pr, qt, hsome⟩ := findInLevels_isSome_of_has b.sell_levels x hs
      show Book.findOrder ⟨b.buy_levels, setQtyInLevels x q b.sell_levels⟩ x = _
      unfold Book.findOrder
      rw [show (Book.mk b.buy_levels (setQtyInLevels x q b.sell_levels)).buy_levels =
        b.buy_levels from rfl,
        show (Book.mk b.buy_levels (setQtyInLevels x q b.sell_levels)).sell_levels =
        setQtyInLevels x q b.sell_levels from rfl]
      rw [hbn, findInLevels_setQty_self, hsome]
      rfl
    · rename_i hb hs
      have hbn : findInLevels b.buy_levels x = none :=
        findInLevels_none_of_not_has b.buy_levels x (by simpa using hb)
      have hsn : findInLevels b.sell_levels x = none :=
        findInLevels_none_of_not_has b.sell_levels x (by simpa using hs)
      unfold Book.findOrder
      rw [hbn, hsn]
      rfl

/-- C6: `Book::fill_orders` applies each emitted trade in order: when the
fill consumed the passive order's full remaining qty (recorded passive qty
minus the fill is zero) the passive order is cancelled — after which its id is
no longer live, and no level is ever left with an empty queue; otherwise its
remaining qty is set to `passive.qty - fill` in place by `Level::modify_qty`:
the order keeps its exact queue position (every level's id sequence and price
are unchanged) and only its recorded qty changes. -/
theorem C6_fill_orders_apply (b : Book) (t : Trade) (ts : List Trade) (x : String) (q : Nat) :
    (Book.fillOrders b (t :: ts) =
      if t.passive_qty - t.aggressive_qty = 0 then
        ((Book.fillOrders (b.cancel t.passive_id) ts).1,
         t :: (Book.fillOrders (b.cancel t.passive_id) ts).2)
      else
        ((Book.fillOrders (b.setQty t.passive_id (t.passive_qty - t.aggressive_qty)) ts).1,
         { t with passive_qty := t.aggressive_qty } ::
           (Book.fillOrders (b.setQty t.passive_id (t.passive_qty - t.aggressive_qty)) ts).2)) ∧
    (b.allIds.Nodup → (b.cancel x).containsId x = false) ∧
    ((∀ lv ∈ b.buy_levels ++ b.sell_levels, lv.orders ≠ []) →
      ∀ lv ∈ (b.cancel x).buy_levels ++ (b.cancel x).sell_levels, lv.orders ≠ []) ∧
    ((b.setQty x q).buy_levels.map oids = b.buy_levels.map oids ∧
     (b.setQty x q).sell_levels.map oids = b.sell_levels.map oids ∧
     pricesOf (b.setQty x q).buy_levels = pricesOf b.buy_levels ∧
     pricesOf (b.setQty x q).sell_levels = pricesOf b.sell_levels) ∧
    ((b.setQty x q).findOrder x = (b.findOrder x).map (fun r => (r.1, r.2.1, q))) := by
  refine ⟨?_, Book.cancel_not_contains b x, Book.cancel_nonempty b x, ?_, Book.setQty_findOrder_self b x q⟩
  · show (if t.passive_qty - t.aggressive_qty = 0 then _ else _) = _
    split <;> rfl
  · unfold Book.setQty
    split
    · exact ⟨setQtyInLevels_oids x q b.buy_levels, rfl, setQtyInLevels_prices x q b.buy_levels, rfl⟩
    · split
      · exact ⟨rfl, setQtyInLevels_oids x q b.sell_levels, rfl, setQtyInLevels_prices x q b.sell_levels⟩
      · exact ⟨rfl, rfl, rfl, rfl⟩

theorem C6_witness :
    (((Book.mk [] [⟨1000, 5, [⟨"a", 5⟩]⟩]).cancel "a").containsId "a" = false) ∧
    (((Book.mk [] [⟨1000, 8, [⟨"a", 5⟩, ⟨"c", 3⟩]⟩]).setQty "a" 2).findOrder "a" =
      (((Book.mk [] [⟨1000, 8, [⟨"a", 5⟩, ⟨"c", 3⟩]⟩]).findOrder "a").map
        (fun r => (r.1, r.2.1, 2)))) :=
  ⟨(C6_fill_orders_apply (Book.mk [] [⟨1000, 5, [⟨"a", 5⟩]⟩]) ⟨0, "", 0, 0, "", 0⟩ [] "a" 1).2.1
     (by decide),
   (C6_fill_orders_apply (Book.mk [] [⟨1000, 8, [⟨"a", 5⟩, ⟨"c", 3⟩]⟩]) ⟨0, "", 0, 0, "", 0⟩
     [] "a" 2).2.2.2.2⟩

/-! ### Unknown-id MODIFY behaviour -/

theorem Book.findOrder_none_of_not_contains (b : Book) (id : String)
    (h : b.containsId id = false) : b.findOrder id = none := by
  have hb : levelsHasId b.buy_levels id = false := by
    cases hc : levelsHasId b.buy_levels id with
    | false => rfl
    | true => simp [Book.containsId, hc] at h
  have hs : levelsHasId b.sell_levels id = false := by
    cases hc : levelsHasId b.sell_levels id with
    | false => rfl
    | true => simp [Book.containsId, hc] at h
  unfold Book.findOrder
  rw [findInLevels_none_of_not_has _ _ hb, findInLevels_none_of_not_has _ _ hs]

theorem Book.cancel_noop (b : Book) (id : String) (h : b.containsId id = false) :
    b.cancel id = b := by
  have hb : levelsHasId b.buy_levels id = false := by
    cases hc : levelsHasId b.buy_levels id with
    | false => rfl
    | true => simp [Book.containsId, hc] at h
  have hs : levelsHasId b.sell_levels id = false := by
    cases hc : levelsHasId b.sell_levels id with
    | false => rfl
    | true => simp [Book.containsId, hc] at h
  unfold Book.cancel
  rw [if_neg (by simp [hb]), if_neg (by simp [hs])]

theorem Book.modify_noop_of_none (b : Book) (side : Side) (id : String) (q p : Nat)
    (h : b.findOrder id = none) : b.modify side id q p = b := by
  cases side with
  | Buy =>
    show b.modifyIn true id q p = b
    unfold Book.modifyIn
    rw [h]
  | Sell =>
    show b.modifyIn false id q p = b
    unfold Book.modifyIn
    rw [h]
  | Invalid => rfl

theorem matchOrders_nil_trades (id : String) (p lp : Nat) (leaves : Nat) (os : List Order) :
    (matchOrders id p lp leaves os).2.1 = [] →
      matchOrders id p lp leaves os = (leaves, [], false) := by
  induction os generalizing leaves with
  | nil => intro _; rfl
  | cons o os ih =>
    simp only [matchOrders]
    split
    · exact ih _
    · split
      · intro h
        exact absurd h (by simp)
      · intro h
        exact absurd h (by simp)

theorem matchWalk_nil_trades (id : String) (p : Nat) (pred : Nat → Nat → Bool)
    (leaves : Nat) (ls : List Level) :
    (matchWalk id p pred leaves ls).2 = [] → (matchWalk id p pred leaves ls).1 = leaves := by
  induction ls generalizing leaves with
  | nil => intro _; rfl
  | cons lv ls ih =>
    simp only [matchWalk]
    split
    · split
      · rename_i hpred hflag
        intro h
        have heq := matchOrders_nil_trades id p lv.price leaves lv.orders h
        rw [heq] at hflag
        exact absurd hflag (by simp)
      · rename_i hpred hflag
        intro h
        rcases List.append_eq_nil.1 h with ⟨h1, h2⟩
        have heq := matchOrders_nil_trades id p lv.price leaves lv.orders h1
        have hlv := congrArg Prod.fst heq
        simp only at hlv
        rw [hlv] at h2 ⊢
        exact ih _ h2
    · intro _; rfl

theorem fillOrders_nil_of_nil (ts : List Trade) (b : Book)
    (h : (Book.fillOrders b ts).2 = []) : ts = [] := by
  cases ts with
  | nil => rfl
  | cons t ts =>
    exfalso
    simp only [Book.fillOrders] at h
    split at h <;> exact absurd h (by simp)

theorem matchOrder_of_nil_trades (b : Book) (side : Side) (id : String) (q p : Nat)
    (h : (b.matchOrder side id q p).2.1 = []) : b.matchOrder side id q p = (b, [], q) := by
  cases side with
  | Buy =>
    have hraw : (matchWalk id p (fun op lp => decide (op ≥ lp)) q b.sell_levels.reverse).2 = [] :=
      fillOrders_nil_of_nil _ b h
    show ((Book.fillOrders b (matchWalk id p (fun op lp => decide (op ≥ lp)) q
        b.sell_levels.reverse).2).1,
      (Book.fillOrders b (matchWalk id p (fun op lp => decide (op ≥ lp)) q
        b.sell_levels.reverse).2).2,
      (matchWalk id p (fun op lp => decide (op ≥ lp)) q b.sell_levels.reverse).1) = (b, [], q)
    rw [hraw, matchWalk_nil_trades id p _ q b.sell_levels.reverse hraw]
    rfl
  | Sell =>
    have hraw : (matchWalk id p (fun op lp => decide (op ≤ lp)) q b.buy_levels).2 = [] :=
      fillOrders_nil_of_nil _ b h
    show ((Book.fillOrders b (matchWalk id p (fun op lp => decide (op ≤ lp)) q
        b.buy_levels).2).1,
      (Book.fillOrders b (matchWalk id p (fun op lp => decide (op ≤ lp)) q
        b.buy_levels).2).2,
      (matchWalk id p (fun op lp => decide (op ≤ lp)) q b.buy_levels).1) = (b, [], q)
    rw [hraw, matchWalk_nil_trades id p _ q b.buy_levels hraw]
    rfl
  | Invalid => rfl

/-- C2 counterexample: a MODIFY naming an id that is not live still runs the
match pass first, so on a book whose opposite side crosses the modify's price
it emits a trade and mutates the book — it is not a no-op. -/
theorem C2_counterexample :
    (applyCmds [Cmd.sell .GFD 1000 10 "order1"]).containsId "zzz" = false ∧
    (Cmd.modify "zzz" .Buy 1000 10).valid = true ∧
    (handleModify (applyCmds [Cmd.sell .GFD 1000 10 "order1"]) "zzz" .Buy 1000 10).2 ≠ [] ∧
    (handleModify (applyCmds [Cmd.sell .GFD 1000 10 "order1"]) "zzz" .Buy 1000 10).1 ≠
      applyCmds [Cmd.sell .GFD 1000 10 "order1"] := by
  decide

/-- C2 amended: for a MODIFY whose id is not live, the `Book::modify` step
itself is always a no-op; the whole engine operation is a no-op (book
unchanged, no trades) exactly when the preceding match pass at the modify's
side, qty and price emits no trades — in particular whenever the price does
not cross the opposite side. When the match pass does emit trades, they are
applied to the book despite the unknown id. -/
theorem C2_unknown_modify_corrected (b : Book) (id : String) (side : Side) (p q : Nat)
    (hlive : b.containsId id = false)
    (hmatch : (b.matchOrder side id q p).2.1 = []) :
    (∀ side' q' p', b.modify side' id q' p' = b) ∧
    handleModify b id side p q = (b, []) := by
  have hfind : b.findOrder id = none := Book.findOrder_none_of_not_contains b id hlive
  have hmo : b.matchOrder side id q p = (b, [], q) :=
    matchOrder_of_nil_trades b side id q p hmatch
  constructor
  · intro side' q' p'
    exact Book.modify_noop_of_none b side' id q' p' hfind
  · show (if (b.matchOrder side id q p).2.2 = 0 then
        ((b.matchOrder side id q p).1.cancel id, (b.matchOrder side id q p).2.1)
      else ((b.matchOrder side id q p).1.modify side id (b.matchOrder side id q p).2.2 p,
        (b.matchOrder side id q p).2.1)) = (b, [])
    simp only [hmo]
    by_cases hq : q = 0
    · rw [if_pos hq, Book.cancel_noop b id hlive]
    · rw [if_neg hq, Book.modify_noop_of_none b side id q p hfind]

theorem C2_witness :
    (Book.mk [] [⟨1000, 10, [⟨"order1", 10⟩]⟩]).modify .Sell "zzz" 5 1200 =
      Book.mk [] [⟨1000, 10, [⟨"order1", 10⟩]⟩] ∧
    handleModify (Book.mk [] [⟨1000, 10, [⟨"order1", 10⟩]⟩]) "zzz" .Buy 900 10 =
      (Book.mk [] [⟨1000, 10, [⟨"order1", 10⟩]⟩], []) :=
  ⟨(C2_unknown_modify_corrected (Book.mk [] [⟨1000, 10, [⟨"order1", 10⟩]⟩]) "zzz" .Buy 900 10
      (by decide) (by decide)).1 .Sell 5 1200,
   (C2_unknown_modify_corrected (Book.mk [] [⟨1000, 10, [⟨"order1", 10⟩]⟩]) "zzz" .Buy 900 10
      (by decide) (by decide)).2⟩

/-! ### Decoder error handling -/

/-- C1 counterexample: a reachable book with two sell levels prints the sell
side highest price first (the stored descending order), not ascending — the
sell price sequence of the snapshot is not sorted ascending. -/
theorem C1_counterexample :
    ([Cmd.sell .GFD 1000 10 "o1", Cmd.sell .GFD 1100 10 "o2"].all Cmd.valid = true) ∧
    applyCmds [Cmd.sell .GFD 1000 10 "o1", Cmd.sell .GFD 1100 10 "o2"] =
      Book.mk [] [⟨1100, 10, [⟨"o2", 10⟩]⟩, ⟨1000, 10, [⟨"o1", 10⟩]⟩] ∧
    (Book.mk [] [⟨1100, 10, [⟨"o2", 10⟩]⟩, ⟨1000, 10, [⟨"o1", 10⟩]⟩]).snapshot =
      ["SELL:", "1100 10", "1000 10", "BUY:"] ∧
    ¬ (pricesOf (Book.mk [] [⟨1100, 10, [⟨"o2", 10⟩]⟩,
        ⟨1000, 10, [⟨"o1", 10⟩]⟩]).sell_levels).Pairwise (· ≤ ·) := by
  refine ⟨rfl, rfl, rfl, ?_⟩
  decide

theorem findInLevels_price_mem (ls : List Level) (id : String) (pr qt : Nat)
    (h : findInLevels ls id = some (pr, qt)) : pr ∈ pricesOf ls := by
  cases hf : ls.find? (fun lv => lv.hasId id) with
  | none =>
    unfold findInLevels at h
    rw [hf] at h
    exact Option.noConfusion h
  | some lv =>
    have h' : (match lv.orders.find? (fun o => o.order_id == id) with
        | some o => some (lv.price, o.qty)
        | none => none) = some (pr, qt) := by
      unfold findInLevels at h
      rw [hf] at h
      exact h
    cases hfo : lv.orders.find? (fun o => o.order_id == id) with
    | none =>
      rw [hfo] at h'
      exact Option.noConfusion h'
    | some o =>
      rw [hfo] at h'
      have hpr : lv.price = pr := by
        have := congrArg (fun r => (Option.map Prod.fst r).getD 0) h'
        simpa using this
      rw [← hpr]
      exact List.mem_map_of_mem Level.price (List.mem_of_find?_eq_some hf)

/-- C8: a MODIFY naming a live order's current side, price and quantity is a
no-op on an uncrossed book: the match pass finds no compatible opposite
level, so no trades are emitted, and `Book::modify` hits its same-side,
same-price, same-qty early return, leaving the book (and hence the order's
queue position) unchanged. -/
theorem C8_modify_same_terms_noop (b : Book) (id : String) (side : Side) (p q : Nat)
    (hfind : b.findOrder id = some (side, p, q)) (hq : 0 < q)
    (hunx : Uncrossed b) :
    handleModify b id side p q = (b, []) := by
  have hmo : b.matchOrder side id q p = (b, [], q) := by
    cases side with
    | Buy =>
      have hwalk : matchWalk id p (fun op lp => decide (op ≥ lp)) q b.sell_levels.reverse =
          (q, []) := by
        have hpbuy : p ∈ pricesOf b.buy_levels := by
          unfold Book.findOrder at hfind
          cases hfb : findInLevels b.buy_levels id with
          | some r =>
            rw [hfb] at hfind
            have h1 : r.1 = p := by
              have := congrArg (fun o => (Option.map (fun s => s.2.1) o).getD 0) hfind
              simpa using this
            exact h1 ▸ findInLevels_price_mem b.buy_levels id r.1 r.2 (by
              rw [hfb])
          | none =>
            rw [hfb] at hfind
            cases hfs : findInLevels b.sell_levels id with
            | some r =>
              rw [hfs] at hfind
              exfalso
              have := congrArg (fun o => (Option.map (fun s => s.1) o).getD Side.Invalid) hfind
              simp at this
            | none =>
              rw [hfs] at hfind
              exact Option.noConfusion hfind
        cases hrev : b.sell_levels.reverse with
        | nil => rfl
        | cons lv rest =>
          have hlv : lv ∈ b.sell_levels := by
            rw [← List.mem_reverse, hrev]
            exact List.mem_cons_self _ _
          have hlt : p < lv.price :=
            hunx p hpbuy lv.price (List.mem_map_of_mem Level.price hlv)
          simp only [matchWalk]
          rw [if_neg (by simp; omega)]
      show ((Book.fillOrders b (matchWalk id p (fun op lp => decide (op ≥ lp)) q
          b.sell_levels.reverse).2).1,
        (Book.fillOrders b (matchWalk id p (fun op lp => decide (op ≥ lp)) q
          b.sell_levels.reverse).2).2,
        (matchWalk id p (fun op lp => decide (op ≥ lp)) q b.sell_levels.reverse).1) = (b, [], q)
      rw [hwalk]
      rfl
    | Sell =>
      have hpsell : p ∈ pricesOf b.sell_levels := by
        unfold Book.findOrder at hfind
        cases hfb : findInLevels b.buy_levels id with
        | some r =>
          rw [hfb] at hfind
          exfalso
          have := congrArg (fun o => (Option.map (fun s => s.1) o).getD Side.Invalid) hfind
          simp at this
        | none =>
          rw [hfb] at hfind
          cases hfs : findInLevels b.sell_levels id with
          | some r =>
            rw [hfs] at hfind
            have h1 : r.1 = p := by
              have := congrArg (fun o => (Option.map (fun s => s.2.1) o).getD 0) hfind
              simpa using this
            exact h1 ▸ findInLevels_price_mem b.sell_levels id r.1 r.2 (by rw [hfs])
          | none =>
            rw [hfs] at hfind
            exact Option.noConfusion hfind
      have hwalk : matchWalk id p (fun op lp => decide (op ≤ lp)) q b.buy_levels =
          (q, []) := by
        cases hbl : b.buy_levels with
        | nil => rfl
        | cons lv rest =>
          have hlv : lv ∈ b.buy_levels := by
            rw [hbl]
            exact List.mem_cons_self _ _
          have hlt : lv.price < p :=
            hunx lv.price (List.mem_map_of_mem Level.price hlv) p hpsell
          simp only [matchWalk]
          rw [if_neg (by simp; omega)]
      show ((Book.fillOrders b (matchWalk id p (fun op lp => decide (op ≤ lp)) q
          b.buy_levels).2).1,
        (Book.fillOrders b (matchWalk id p (fun op lp => decide (op ≤ lp)) q
          b.buy_levels).2).2,
        (matchWalk id p (fun op lp => decide (op ≤ lp)) q b.buy_levels).1) = (b, [], q)
      rw [hwalk]
      rfl
    | Invalid =>
      exfalso
      unfold Book.findOrder at hfind
      cases hfb : findInLevels b.buy_levels id with
      | some r =>
        rw [hfb] at hfind
        have := congrArg (fun o => (Option.map (fun s => s.1) o).getD Side.Invalid) hfind
        simp at this
      | none =>
        rw [hfb] at hfind
        cases hfs : findInLevels b.sell_levels id with
        | some r =>
          rw [hfs] at hfind
          have := congrArg (fun o => (Option.map (fun s => s.1) o).getD Side.Invalid) hfind
          simp at this
        | none =>
          rw [hfs] at hfind
          exact Option.noConfusion hfind
  show (if (b.matchOrder side id q p).2.2 = 0 then
      ((b.matchOrder side id q p).1.cancel id, (b.matchOrder side id q p).2.1)
    else ((b.matchOrder side id q p).1.modify side id (b.matchOrder side id q p).2.2 p,
      (b.matchOrder side id q p).2.1)) = (b, [])
  simp only [hmo]
  rw [if_neg (by omega)]
  have hmod : b.modify side id q p = b := by
    cases side with
    | Buy =>
      show b.modifyIn true id q p = b
      unfold Book.modifyIn
      rw [hfind]
      simp
    | Sell =>
      show b.modifyIn false id q p = b
      unfold Book.modifyIn
      rw [hfind]
      simp
    | Invalid => rfl
  rw [hmod]

theorem C8_witness :
    handleModify (Book.mk [⟨1000, 10, [⟨"o1", 10⟩]⟩] []) "o1" .Buy 1000 10 =
      (Book.mk [⟨1000, 10, [⟨"o1", 10⟩]⟩] [], []) :=
  C8_modify_same_terms_noop (Book.mk [⟨1000, 10, [⟨"o1", 10⟩]⟩] []) "o1" .Buy 1000 10
    (by decide) (by decide) (by unfold Uncrossed; decide)

/-! ### Arithmetic of cached level quantities -/

theorem qty_le_sum (os : List Order) (o : Order) (h : o ∈ os) :
    o.qty ≤ (os.map Order.qty).sum := by
  induction os with
  | nil => simp at h
  | cons o' os ih =>
    rcases List.mem_cons.1 h with rfl | h
    · simp
    · simp only [List.map_cons, List.sum_cons]
      exact le_trans (ih h) (Nat.le_add_left _ _)

theorem sum_eraseP (x : String) (os : List Order) (o : Order)
    (h : os.find? (fun o => o.order_id == x) = some o) :
    ((os.eraseP (fun o => o.order_id == x)).map Order.qty).sum =
      (os.map Order.qty).sum - o.qty := by
  induction os with
  | nil => simp at h
  | cons o' os ih =>
    by_cases hx : o'.order_id = x
    · rw [List.find?_cons_of_pos _ (by simp [hx])] at h
      injection h with h
      subst h
      rw [List.eraseP_cons_of_pos (by simp [hx])]
      simp
    · rw [List.find?_cons_of_neg _ (by simp [hx])] at h
      rw [List.eraseP_cons_of_neg (by simp [hx])]
      have hle : o.qty ≤ (os.map Order.qty).sum :=
        qty_le_sum os o (List.mem_of_find?_eq_some h)
      simp only [List.map_cons, List.sum_cons, ih h]
      omega

theorem sum_setFirst (x : String) (q : Nat) (os : List Order) (o : Order)
    (h : os.find? (fun o => o.order_id == x) = some o) :
    ((Level.setFirst os x q).map Order.qty).sum =
      (os.map Order.qty).sum - o.qty + q := by
  induction os with
  | nil => simp at h
  | cons o' os ih =>
    simp only [Level.setFirst]
    by_cases hx : o'.order_id = x
    · rw [List.find?_cons_of_pos _ (by simp [hx])] at h
      injection h with h
      subst h
      rw [if_pos (by simp [hx])]
      simp only [List.map_cons, List.sum_cons]
      omega
    · rw [List.find?_cons_of_neg _ (by simp [hx])] at h
      rw [if_neg (by simp [hx])]
      have hle : o.qty ≤ (os.map Order.qty).sum :=
        qty_le_sum os o (List.mem_of_find?_eq_some h)
      simp only [List.map_cons, List.sum_cons, ih h]
      omega

theorem setFirst_mem (x : String) (q : Nat) (os : List Order) (o' : Order)
    (h : o' ∈ Level.setFirst os x q) : o' = ⟨x, q⟩ ∨ o' ∈ os := by
  induction os with
  | nil => simp [Level.setFirst] at h
  | cons o os ih =>
    simp only [Level.setFirst] at h
    split at h
    · rcases List.mem_cons.1 h with rfl | h
      · exact Or.inl rfl
      · exact Or.inr (List.mem_cons_of_mem _ h)
    · rcases List.mem_cons.1 h with rfl | h
      · exact Or.inr (List.mem_cons_self _ _)
      · rcases ih h with h' | h'
        · exact Or.inl h'
        · exact Or.inr (List.mem_cons_of_mem _ h')

/-! ### Price lists of the level operations -/

theorem Level.add_price (lv : Level) (id : String) (q : Nat) :
    (lv.add id q).price = lv.price := rfl

theorem Level.modify_price (lv : Level) (x : String) (q : Nat) :
    (lv.modify x q).price = lv.price := by
  unfold Level.modify
  split <;> rfl

theorem cancelInLevels_prices_sublist (x : String) (ls : List Level) :
    (pricesOf (cancelInLevels x ls)).Sublist (pricesOf ls) := by
  induction ls with
  | nil => exact List.Sublist.refl _
  | cons lv ls ih =>
    simp only [cancelInLevels]
    split
    · split
      · simp only [pricesOf, List.map_cons]
        exact (List.Sublist.refl _).cons _
      · simp only [pricesOf, List.map_cons, Level.cancel_price]
        exact (List.Sublist.refl _).cons₂ _
    · simp only [pricesOf, List.map_cons]
      exact ih.cons₂ _

theorem modifyInLevels_prices (x : String) (q : Nat) (ls : List Level) :
    pricesOf (modifyInLevels x q ls) = pricesOf ls := by
  induction ls with
  | nil => rfl
  | cons lv ls ih =>
    simp only [modifyInLevels]
    split
    · simp [pricesOf, Level.modify_price]
    · simp only [pricesOf, List.map_cons] at ih ⊢
      rw [ih]

theorem addToLevels_prices_mem (id : String) (q p : Nat) (ls : List Level) (x : Nat)
    (h : x ∈ pricesOf (addToLevels id q p ls)) : x = p ∨ x ∈ pricesOf ls := by
  induction ls with
  | nil =>
    simp only [addToLevels, pricesOf, List.map_cons, List.map_nil, List.mem_singleton] at h
    exact Or.inl h
  | cons lv ls ih =>
    simp only [addToLevels] at h
    split at h
    · simp only [pricesOf, List.map_cons, List.mem_cons] at h
      rcases h with rfl | h
      · exact Or.inl rfl
      · exact Or.inr (by simpa [pricesOf] using h)
    · split at h
      · rename_i hne heq
        simp only [pricesOf, List.map_cons, List.mem_cons, Level.add_price] at h
        rcases h with rfl | h
        · exact Or.inr (by simp [pricesOf])
        · exact Or.inr (by simp [pricesOf, h])
      · simp only [pricesOf, List.map_cons, List.mem_cons] at h
        rcases h with rfl | h
        · exact Or.inr (by simp [pricesOf])
        · rcases ih h with h' | h'
          · exact Or.inl h'
          · exact Or.inr (by simp [pricesOf] at h' ⊢; exact Or.inr h')

theorem addToLevels_sorted (id : String) (q p : Nat) (ls : List Level)
    (h : (pricesOf ls).Pairwise (· > ·)) :
    (pricesOf (addToLevels id q p ls)).Pairwise (· > ·) := by
  induction ls with
  | nil => simp [addToLevels, pricesOf]
  | cons lv ls ih =>
    simp only [pricesOf, List.map_cons] at h
    rcases List.pairwise_cons.1 h with ⟨hhead, htail⟩
    simp only [addToLevels]
    split
    · rename_i hgt
      simp only [pricesOf, List.map_cons]
      rw [List.pairwise_cons]
      constructor
      · intro y hy
        rcases List.mem_cons.1 hy with rfl | hy
        · exact hgt
        · exact lt_trans (hhead y hy) hgt
      · rw [List.pairwise_cons]
        exact ⟨hhead, htail⟩
    · split
      · rename_i hne heq
        simp only [pricesOf, List.map_cons, Level.add_price]
        rw [List.pairwise_cons]
        exact ⟨hhead, htail⟩
      · rename_i hngt hne
        simp only [pricesOf, List.map_cons]
        rw [List.pairwise_cons]
        constructor
        · intro y hy
          rcases addToLevels_prices_mem id q p ls y (by simpa [pricesOf] using hy) with rfl | hy'
          · omega
          · exact hhead y (by simpa [pricesOf] using hy')
        · exact ih htail


/-! ### Origin of levels through the fill operations -/

theorem origin_refl (ls : List Level) : LevelsOrigin ls ls :=
  fun lv hlv => ⟨lv, hlv, rfl, fun _ h => h⟩

theorem origin_trans {l1 l2 l3 : List Level} (h12 : LevelsOrigin l1 l2)
    (h23 : LevelsOrigin l2 l3) : LevelsOrigin l1 l3 := by
  intro lv1 h1
  obtain ⟨lv2, h2, hp12, hs12⟩ := h12 lv1 h1
  obtain ⟨lv3, h3, hp23, hs23⟩ := h23 lv2 h2
  exact ⟨lv3, h3, hp12.trans hp23, fun oid ho => hs23 oid (hs12 oid ho)⟩

theorem origin_cancelInLevels (x : String) (ls : List Level) :
    LevelsOrigin (cancelInLevels x ls) ls := by
  induction ls with
  | nil => exact origin_refl []
  | cons lv ls ih =>
    simp only [cancelInLevels]
    split
    · split
      · intro lv' hlv'
        exact ⟨lv', List.mem_cons_of_mem _ hlv', rfl, fun _ h => h⟩
      · intro lv' hlv'
        rcases List.mem_cons.1 hlv' with rfl | hlv'
        · refine ⟨lv, List.mem_cons_self _ _, Level.cancel_price lv x, ?_⟩
          intro oid ho
          exact (oids_cancel_sublist lv x).subset ho
        · exact ⟨lv', List.mem_cons_of_mem _ hlv', rfl, fun _ h => h⟩
    · intro lv' hlv'
      rcases List.mem_cons.1 hlv' with rfl | hlv'
      · exact ⟨lv', List.mem_cons_self _ _, rfl, fun _ h => h⟩
      · obtain ⟨lv2, h2, hp, hs⟩ := ih lv' hlv'
        exact ⟨lv2, List.mem_cons_of_mem _ h2, hp, hs⟩

theorem origin_setQtyInLevels (x : String) (q : Nat) (ls : List Level) :
    LevelsOrigin (setQtyInLevels x q ls) ls := by
  induction ls with
  | nil => exact origin_refl []
  | cons lv ls ih =>
    simp only [setQtyInLevels]
    split
    · intro lv' hlv'
      rcases List.mem_cons.1 hlv' with rfl | hlv'
      · refine ⟨lv, List.mem_cons_self _ _, Level.modify_qty_price lv x q, ?_⟩
        intro oid ho
        rw [oids_modify_qty lv x q] at ho
        exact ho
      · exact ⟨lv', List.mem_cons_of_mem _ hlv', rfl, fun _ h => h⟩
    · intro lv' hlv'
      rcases List.mem_cons.1 hlv' with rfl | hlv'
      · exact ⟨lv', List.mem_cons_self _ _, rfl, fun _ h => h⟩
      · obtain ⟨lv2, h2, hp, hs⟩ := ih lv' hlv'
        exact ⟨lv2, List.mem_cons_of_mem _ h2, hp, hs⟩

theorem Book.cancel_origin (b : Book) (x : String) :
    LevelsOrigin (b.cancel x).buy_levels b.buy_levels ∧
    LevelsOrigin (b.cancel x).sell_levels b.sell_levels := by
  unfold Book.cancel
  split
  · exact ⟨origin_cancelInLevels x b.buy_levels, origin_refl _⟩
  · split
    · exact ⟨origin_refl _, origin_cancelInLevels x b.sell_levels⟩
    · exact ⟨origin_refl _, origin_refl _⟩

theorem Book.setQty_origin (b : Book) (x : String) (q : Nat) :
    LevelsOrigin (b.setQty x q).buy_levels b.buy_levels ∧
    LevelsOrigin (b.setQty x q).sell_levels b.sell_levels := by
  unfold Book.setQty
  split
  · exact ⟨origin_setQtyInLevels x q b.buy_levels, origin_refl _⟩
  · split
    · exact ⟨origin_refl _, origin_setQtyInLevels x q b.sell_levels⟩
    · exact ⟨origin_refl _, origin_refl _⟩

theorem fillOrders_origin (ts : List Trade) (b : Book) :
    LevelsOrigin (Book.fillOrders b ts).1.buy_levels b.buy_levels ∧
    LevelsOrigin (Book.fillOrders b ts).1.sell_levels b.sell_levels := by
  induction ts generalizing b with
  | nil => exact ⟨origin_refl _, origin_refl _⟩
  | cons t ts ih =>
    simp only [Book.fillOrders]
    split
    · exact ⟨origin_trans (ih _).1 (Book.cancel_origin b _).1,
        origin_trans (ih _).2 (Book.cancel_origin b _).2⟩
    · exact ⟨origin_trans (ih _).1 (Book.setQty_origin b _ _).1,
        origin_trans (ih _).2 (Book.setQty_origin b _ _).2⟩

/-! ### Id multiset bookkeeping for insertion and requeueing -/

theorem flatIds_addToLevels (id : String) (q p : Nat) (ls : List Level) :
    ∃ l1 l2, flatIds ls = l1 ++ l2 ∧
      flatIds (addToLevels id q p ls) = l1 ++ id :: l2 := by
  induction ls with
  | nil => exact ⟨[], [], rfl, rfl⟩
  | cons lv ls ih =>
    simp only [addToLevels]
    split
    · refine ⟨[], flatIds (lv :: ls), rfl, ?_⟩
      simp [flatIds, oids]
    · split
      · refine ⟨oids lv, flatIds ls, by simp [flatIds], ?_⟩
        simp [flatIds, oids, Level.add]
      · obtain ⟨l1, l2, h1, h2⟩ := ih
        refine ⟨oids lv ++ l1, l2, ?_, ?_⟩
        · simp only [flatIds, List.flatMap_cons] at h1 ⊢
          rw [h1, List.append_assoc]
        · simp only [flatIds, List.flatMap_cons] at h2 ⊢
          rw [h2, List.append_assoc]

theorem allIds_add_buy_perm (b : Book) (id : String) (q p : Nat) :
    (Book.mk (addToLevels id q p b.buy_levels) b.sell_levels).allIds.Perm
      (id :: b.allIds) := by
  obtain ⟨l1, l2, h1, h2⟩ := flatIds_addToLevels id q p b.buy_levels
  show (flatIds (addToLevels id q p b.buy_levels) ++ flatIds b.sell_levels).Perm _
  rw [h2, show (l1 ++ id :: l2) ++ flatIds b.sell_levels =
    l1 ++ id :: (l2 ++ flatIds b.sell_levels) by simp]
  refine List.Perm.trans List.perm_middle ?_
  rw [show l1 ++ (l2 ++ flatIds b.sell_levels) = (l1 ++ l2) ++ flatIds b.sell_levels by simp,
    ← h1]
  exact List.Perm.refl _

theorem allIds_add_sell_perm (b : Book) (id : String) (q p : Nat) :
    (Book.mk b.buy_levels (addToLevels id q p b.sell_levels)).allIds.Perm
      (id :: b.allIds) := by
  obtain ⟨l1, l2, h1, h2⟩ := flatIds_addToLevels id q p b.sell_levels
  show (flatIds b.buy_levels ++ flatIds (addToLevels id q p b.sell_levels)).Perm _
  rw [h2, show flatIds b.buy_levels ++ (l1 ++ id :: l2) =
    (flatIds b.buy_levels ++ l1) ++ id :: l2 by simp]
  refine List.Perm.trans List.perm_middle ?_
  rw [show (flatIds b.buy_levels ++ l1) ++ l2 = flatIds b.buy_levels ++ (l1 ++ l2) by simp,
    ← h1]
  exact List.Perm.refl _

theorem eraseP_map_oid (x : String) (os : List Order) :
    (os.eraseP (fun o => o.order_id == x)).map Order.order_id =
      (os.map Order.order_id).eraseP (fun s => s == x) := by
  induction os with
  | nil => rfl
  | cons o os ih =>
    by_cases hx : o.order_id = x
    · rw [List.eraseP_cons_of_pos (by simp [hx]), List.map_cons,
        List.eraseP_cons_of_pos (by simp [hx])]
    · rw [List.eraseP_cons_of_neg (by simp [hx]), List.map_cons, List.map_cons,
        List.eraseP_cons_of_neg (by simp [hx]), ih]

theorem Level.modify_orders_of_hasId (lv : Level) (x : String) (q : Nat)
    (h : lv.hasId x = true) :
    (lv.modify x q).orders =
      lv.orders.eraseP (fun o => o.order_id == x) ++ [⟨x, q⟩] := by
  unfold Level.modify
  cases hf : lv.orders.find? (fun o => o.order_id == x) with
  | none =>
    exfalso
    rw [List.find?_eq_none] at hf
    obtain ⟨o, ho, hp⟩ := List.any_eq_true.1 h
    exact hf o ho hp
  | some o => rfl

theorem cons_eraseP_perm (x : String) (l : List String) (h : x ∈ l) :
    (x :: l.eraseP (fun s => s == x)).Perm l := by
  induction l with
  | nil => simp at h
  | cons a l ih =>
    by_cases ha : a = x
    · rw [List.eraseP_cons_of_pos (by simp [ha]), ha]
    · rw [List.eraseP_cons_of_neg (by simp [ha])]
      have h' : x ∈ l := by
        rcases List.mem_cons.1 h with rfl | h'
        · exact absurd rfl ha
        · exact h'
      exact (List.Perm.swap a x _).trans ((ih h').cons a)

theorem oids_modify_perm (lv : Level) (x : String) (q : Nat) (h : lv.hasId x = true) :
    (oids (lv.modify x q)).Perm (oids lv) := by
  show ((lv.modify x q).orders.map Order.order_id).Perm _
  rw [Level.modify_orders_of_hasId lv x q h, List.map_append, eraseP_map_oid]
  have hx : x ∈ lv.orders.map Order.order_id := (hasId_iff_mem lv x).1 h
  refine List.Perm.trans List.perm_append_comm ?_
  exact cons_eraseP_perm x _ hx

theorem flatIds_modifyInLevels_perm (x : String) (q : Nat) (ls : List Level) :
    (flatIds (modifyInLevels x q ls)).Perm (flatIds ls) := by
  induction ls with
  | nil => exact List.Perm.refl _
  | cons lv ls ih =>
    simp only [modifyInLevels]
    split
    · rename_i hx
      simp only [flatIds, List.flatMap_cons]
      exact (oids_modify_perm lv x q hx).append_right _
    · simp only [flatIds, List.flatMap_cons]
      exact ih.append_left _

/-! ### Positivity and cache correctness through the level operations -/

theorem Level.cancel_orders_subset (lv : Level) (x : String) (o : Order)
    (h : o ∈ (lv.cancel x).orders) : o ∈ lv.orders := by
  unfold Level.cancel at h
  split at h
  · exact h
  · exact (List.eraseP_sublist _).subset h

theorem qpos_cancelInLevels (x : String) (ls : List Level)
    (h : ∀ lv ∈ ls, ∀ o ∈ lv.orders, 0 < o.qty) :
    ∀ lv' ∈ cancelInLevels x ls, ∀ o ∈ lv'.orders, 0 < o.qty := by
  induction ls with
  | nil => simp [cancelInLevels]
  | cons lv ls ih =>
    simp only [cancelInLevels]
    split
    · split
      · exact fun lv' hlv' => h lv' (List.mem_cons_of_mem _ hlv')
      · intro lv' hlv' o ho
        rcases List.mem_cons.1 hlv' with rfl | hlv'
        · exact h lv (List.mem_cons_self _ _) o (Level.cancel_orders_subset lv x o ho)
        · exact h lv' (List.mem_cons_of_mem _ hlv') o ho
    · intro lv' hlv' o ho
      rcases List.mem_cons.1 hlv' with rfl | hlv'
      · exact h lv' (List.mem_cons_self _ _) o ho
      · exact ih (fun u hu => h u (List.mem_cons_of_mem _ hu)) lv' hlv' o ho

theorem cache_cancelInLevels (x : String) (ls : List Level)
    (h : ∀ lv ∈ ls, lv.qty = (lv.orders.map Order.qty).sum) :
    ∀ lv' ∈ cancelInLevels x ls, lv'.qty = (lv'.orders.map Order.qty).sum := by
  induction ls with
  | nil => simp [cancelInLevels]
  | cons lv ls ih =>
    simp only [cancelInLevels]
    split
    · split
      · exact fun lv' hlv' => h lv' (List.mem_cons_of_mem _ hlv')
      · intro lv' hlv'
        rcases List.mem_cons.1 hlv' with rfl | hlv'
        · show (lv.cancel x).qty = _
          unfold Level.cancel
          cases hf : lv.orders.find? (fun o => o.order_id == x) with
          | none => exact h lv (List.mem_cons_self _ _)
          | some o =>
            show lv.qty - o.qty =
              ((lv.orders.eraseP (fun o => o.order_id == x)).map Order.qty).sum
            rw [sum_eraseP x lv.orders o hf, h lv (List.mem_cons_self _ _)]
        · exact h lv' (List.mem_cons_of_mem _ hlv')
    · intro lv' hlv'
      rcases List.mem_cons.1 hlv' with rfl | hlv'
      · exact h lv' (List.mem_cons_self _ _)
      · exact ih (fun u hu => h u (List.mem_cons_of_mem _ hu)) lv' hlv'

theorem qpos_setQtyInLevels (x : String) (q : Nat) (hq : 0 < q) (ls : List Level)
    (h : ∀ lv ∈ ls, ∀ o ∈ lv.orders, 0 < o.qty) :
    ∀ lv' ∈ setQtyInLevels x q ls, ∀ o ∈ lv'.orders, 0 < o.qty := by
  induction ls with
  | nil => simp [setQtyInLevels]
  | cons lv ls ih =>
    simp only [setQtyInLevels]
    split
    · intro lv' hlv' o ho
      rcases List.mem_cons.1 hlv' with rfl | hlv'
      · have horders : o ∈ Level.setFirst lv.orders x q ∨ o ∈ lv.orders := by
          unfold Level.modify_qty at ho
          split at ho
          · exact Or.inr ho
          · exact Or.inl ho
        rcases horders with ho' | ho'
        · rcases setFirst_mem x q lv.orders o ho' with rfl | ho''
          · exact hq
          · exact h lv (List.mem_cons_self _ _) o ho''
        · exact h lv (List.mem_cons_self _ _) o ho'
      · exact h lv' (List.mem_cons_of_mem _ hlv') o ho
    · intro lv' hlv' o ho
      rcases List.mem_cons.1 hlv' with rfl | hlv'
      · exact h lv' (List.mem_cons_self _ _) o ho
      · exact ih (fun u hu => h u (List.mem_cons_of_mem _ hu)) lv' hlv' o ho

theorem cache_setQtyInLevels (x : String) (q : Nat) (ls : List Level)
    (h : ∀ lv ∈ ls, lv.qty = (lv.orders.map Order.qty).sum) :
    ∀ lv' ∈ setQtyInLevels x q ls, lv'.qty = (lv'.orders.map Order.qty).sum := by
  induction ls with
  | nil => simp [setQtyInLevels]
  | cons lv ls ih =>
    simp only [setQtyInLevels]
    split
    · intro lv' hlv'
      rcases List.mem_cons.1 hlv' with rfl | hlv'
      · show (lv.modify_qty x q).qty = _
        unfold Level.modify_qty
        cases hf : lv.orders.find? (fun o => o.order_id == x) with
        | none => exact h lv (List.mem_cons_self _ _)
        | some o =>
          show lv.qty - o.qty + q = ((Level.setFirst lv.orders x q).map Order.qty).sum
          rw [sum_setFirst x q lv.orders o hf, h lv (List.mem_cons_self _ _)]
      · exact h lv' (List.mem_cons_of_mem _ hlv')
    · intro lv' hlv'
      rcases List.mem_cons.1 hlv' with rfl | hlv'
      · exact h lv' (List.mem_cons_self _ _)
      · exact ih (fun u hu => h u (List.mem_cons_of_mem _ hu)) lv' hlv'

theorem nonempty_setQtyInLevels (x : String) (q : Nat) (ls : List Level)
    (h : ∀ lv ∈ ls, lv.orders ≠ []) :
    ∀ lv' ∈ setQtyInLevels x q ls, lv'.orders ≠ [] := by
  induction ls with
  | nil => simp [setQtyInLevels]
  | cons lv ls ih =>
    simp only [setQtyInLevels]
    split
    · intro lv' hlv'
      rcases List.mem_cons.1 hlv' with rfl | hlv'
      · intro hcon
        have := oids_modify_qty lv x q
        rw [show oids (lv.modify_qty x q) = [] by simp [oids, hcon]] at this
        exact h lv (List.mem_cons_self _ _) (List.map_eq_nil_iff.1 this.symm)
      · exact h lv' (List.mem_cons_of_mem _ hlv')
    · intro lv' hlv'
      rcases List.mem_cons.1 hlv' with rfl | hlv'
      · exact h lv' (List.mem_cons_self _ _)
      · exact ih (fun u hu => h u (List.mem_cons_of_mem _ hu)) lv' hlv'

theorem qpos_modifyInLevels (x : String) (q : Nat) (hq : 0 < q) (ls : List Level)
    (h : ∀ lv ∈ ls, ∀ o ∈ lv.orders, 0 < o.qty) :
    ∀ lv' ∈ modifyInLevels x q ls, ∀ o ∈ lv'.orders, 0 < o.qty := by
  induction ls with
  | nil => simp [modifyInLevels]
  | cons lv ls ih =>
    simp only [modifyInLevels]
    split
    · rename_i hx
      intro lv' hlv' o ho
      rcases List.mem_cons.1 hlv' with rfl | hlv'
      · rw [Level.modify_orders_of_hasId lv x q hx] at ho
        rcases List.mem_append.1 ho with ho' | ho'
        · exact h lv (List.mem_cons_self _ _) o ((List.eraseP_sublist _).subset ho')
        · rw [List.mem_singleton.1 ho']
          exact hq
      · exact h lv' (List.mem_cons_of_mem _ hlv') o ho
    · intro lv' hlv' o ho
      rcases List.mem_cons.1 hlv' with rfl | hlv'
      · exact h lv' (List.mem_cons_self _ _) o ho
      · exact ih (fun u hu => h u (List.mem_cons_of_mem _ hu)) lv' hlv' o ho

theorem cache_modifyInLevels (x : String) (q : Nat) (ls : List Level)
    (h : ∀ lv ∈ ls, lv.qty = (lv.orders.map Order.qty).sum) :
    ∀ lv' ∈ modifyInLevels x q ls, lv'.qty = (lv'.orders.map Order.qty).sum := by
  induction ls with
  | nil => simp [modifyInLevels]
  | cons lv ls ih =>
    simp only [modifyInLevels]
    split
    · rename_i hx
      intro lv' hlv'
      rcases List.mem_cons.1 hlv' with rfl | hlv'
      · show (lv.modify x q).qty = _
        unfold Level.modify
        cases hf : lv.orders.find? (fun o => o.order_id == x) with
        | none => exact h lv (List.mem_cons_self _ _)
        | some o =>
          show lv.qty - o.qty + q =
            (((lv.orders.eraseP (fun o => o.order_id == x)) ++
              [(⟨x, q⟩ : Order)]).map Order.qty).sum
          rw [List.map_append, List.sum_append, sum_eraseP x lv.orders o hf,
            h lv (List.mem_cons_self _ _)]
          simp
      · exact h lv' (List.mem_cons_of_mem _ hlv')
    · intro lv' hlv'
      rcases List.mem_cons.1 hlv' with rfl | hlv'
      · exact h lv' (List.mem_cons_self _ _)
      · exact ih (fun u hu => h u (List.mem_cons_of_mem _ hu)) lv' hlv'

theorem nonempty_modifyInLevels (x : String) (q : Nat) (ls : List Level)
    (h : ∀ lv ∈ ls, lv.orders ≠ []) :
    ∀ lv' ∈ modifyInLevels x q ls, lv'.orders ≠ [] := by
  induction ls with
  | nil => simp [modifyInLevels]
  | cons lv ls ih =>
    simp only [modifyInLevels]
    split
    · rename_i hx
      intro lv' hlv'
      rcases List.mem_cons.1 hlv' with rfl | hlv'
      · rw [Level.modify_orders_of_hasId lv x q hx]
        simp
      · exact h lv' (List.mem_cons_of_mem _ hlv')
    · intro lv' hlv'
      rcases List.mem_cons.1 hlv' with rfl | hlv'
      · exact h lv' (List.mem_cons_self _ _)
      · exact ih (fun u hu => h u (List.mem_cons_of_mem _ hu)) lv' hlv'

/-! ### Well-formedness preservation -/

theorem WF_update_buy (b : Book) (ls' : List Level) (h : BookWF b)
    (hsort : (pricesOf ls').Pairwise (· > ·))
    (hmem : ∀ x ∈ pricesOf ls',
      x ∈ pricesOf b.buy_levels ∨ (∀ sp ∈ pricesOf b.sell_levels, x < sp))
    (hnodup : (flatIds ls' ++ flatIds b.sell_levels).Nodup)
    (hne : ∀ lv ∈ ls', lv.orders ≠ [])
    (hq : ∀ lv ∈ ls', ∀ o ∈ lv.orders, 0 < o.qty)
    (hc : ∀ lv ∈ ls', lv.qty = (lv.orders.map Order.qty).sum) :
    BookWF ⟨ls', b.sell_levels⟩ := by
  refine ⟨hsort, h.sell_sorted, ?_, hnodup, ?_, ?_, ?_⟩
  · intro lv hlv
    rcases List.mem_append.1 hlv with h' | h'
    · exact hne lv h'
    · exact h.nonempty lv (List.mem_append_right _ h')
  · intro lv hlv
    rcases List.mem_append.1 hlv with h' | h'
    · exact hq lv h'
    · exact h.qpos lv (List.mem_append_right _ h')
  · intro lv hlv
    rcases List.mem_append.1 hlv with h' | h'
    · exact hc lv h'
    · exact h.cache lv (List.mem_append_right _ h')
  · intro bp hbp sp hsp
    rcases hmem bp hbp with h' | h'
    · exact h.uncrossed bp h' sp hsp
    · exact h' sp hsp

theorem WF_update_sell (b : Book) (ls' : List Level) (h : BookWF b)
    (hsort : (pricesOf ls').Pairwise (· > ·))
    (hmem : ∀ x ∈ pricesOf ls',
      x ∈ pricesOf b.sell_levels ∨ (∀ bp ∈ pricesOf b.buy_levels, bp < x))
    (hnodup : (flatIds b.buy_levels ++ flatIds ls').Nodup)
    (hne : ∀ lv ∈ ls', lv.orders ≠ [])
    (hq : ∀ lv ∈ ls', ∀ o ∈ lv.orders, 0 < o.qty)
    (hc : ∀ lv ∈ ls', lv.qty = (lv.orders.map Order.qty).sum) :
    BookWF ⟨b.buy_levels, ls'⟩ := by
  refine ⟨h.buy_sorted, hsort, ?_, hnodup, ?_, ?_, ?_⟩
  · intro lv hlv
    rcases List.mem_append.1 hlv with h' | h'
    · exact h.nonempty lv (List.mem_append_left _ h')
    · exact hne lv h'
  · intro lv hlv
    rcases List.mem_append.1 hlv with h' | h'
    · exact h.qpos lv (List.mem_append_left _ h')
    · exact hq lv h'
  · intro lv hlv
    rcases List.mem_append.1 hlv with h' | h'
    · exact h.cache lv (List.mem_append_left _ h')
    · exact hc lv h'
  · intro bp hbp sp hsp
    rcases hmem sp hsp with h' | h'
    · exact h.uncrossed bp hbp sp h'
    · exact h' bp hbp

theorem hside_of_wf_buy (b : Book) (h : BookWF b) :
    ∀ lv ∈ b.buy_levels, lv.orders ≠ [] :=
  fun lv hlv => h.nonempty lv (List.mem_append_left _ hlv)

theorem hside_of_wf_sell (b : Book) (h : BookWF b) :
    ∀ lv ∈ b.sell_levels, lv.orders ≠ [] :=
  fun lv hlv => h.nonempty lv (List.mem_append_right _ hlv)

theorem WF_cancel (b : Book) (x : String) (h : BookWF b) : BookWF (b.cancel x) := by
  have hnodup := h.nodup
  rw [Book.allIds] at hnodup
  unfold Book.cancel
  split
  · refine WF_update_buy b _ h ?_ ?_ ?_ ?_ ?_ ?_
    · exact h.buy_sorted.sublist (cancelInLevels_prices_sublist x _)
    · exact fun y hy => Or.inl ((cancelInLevels_prices_sublist x _).subset hy)
    · exact (((flatIds_cancel_sublist x _).append (List.Sublist.refl _)).nodup hnodup)
    · exact cancelInLevels_nonempty x _ (hside_of_wf_buy b h)
    · exact qpos_cancelInLevels x _ (fun lv hlv => h.qpos lv (List.mem_append_left _ hlv))
    · exact cache_cancelInLevels x _ (fun lv hlv => h.cache lv (List.mem_append_left _ hlv))
  · split
    · refine WF_update_sell b _ h ?_ ?_ ?_ ?_ ?_ ?_
      · exact h.sell_sorted.sublist (cancelInLevels_prices_sublist x _)
      · exact fun y hy => Or.inl ((cancelInLevels_prices_sublist x _).subset hy)
      · exact (((List.Sublist.refl _).append (flatIds_cancel_sublist x _)).nodup hnodup)
      · exact cancelInLevels_nonempty x _ (hside_of_wf_sell b h)
      · exact qpos_cancelInLevels x _ (fun lv hlv => h.qpos lv (List.mem_append_right _ hlv))
      · exact cache_cancelInLevels x _ (fun lv hlv => h.cache lv (List.mem_append_right _ hlv))
    · exact h

theorem WF_setQty (b : Book) (x : String) (q : Nat) (hq : 0 < q) (h : BookWF b) :
    BookWF (b.setQty x q) := by
  have hnodup := h.nodup
  rw [Book.allIds] at hnodup
  unfold Book.setQty
  split
  · refine WF_update_buy b _ h ?_ ?_ ?_ ?_ ?_ ?_
    · rw [setQtyInLevels_prices]
      exact h.buy_sorted
    · intro y hy
      rw [setQtyInLevels_prices] at hy
      exact Or.inl hy
    · rw [flatIds_setQty]
      exact hnodup
    · exact nonempty_setQtyInLevels x q _ (hside_of_wf_buy b h)
    · exact qpos_setQtyInLevels x q hq _ (fun lv hlv => h.qpos lv (List.mem_append_left _ hlv))
    · exact cache_setQtyInLevels x q _ (fun lv hlv => h.cache lv (List.mem_append_left _ hlv))
  · split
    · refine WF_update_sell b _ h ?_ ?_ ?_ ?_ ?_ ?_
      · rw [setQtyInLevels_prices]
        exact h.sell_sorted
      · intro y hy
        rw [setQtyInLevels_prices] at hy
        exact Or.inl hy
      · rw [flatIds_setQty]
        exact hnodup
      · exact nonempty_setQtyInLevels x q _ (hside_of_wf_sell b h)
      · exact qpos_setQtyInLevels x q hq _
          (fun lv hlv => h.qpos lv (List.mem_append_right _ hlv))
      · exact cache_setQtyInLevels x q _
          (fun lv hlv => h.cache lv (List.mem_append_right _ hlv))
    · exact h

theorem WF_fillOrders (ts : List Trade) (b : Book) (h : BookWF b) :
    BookWF (Book.fillOrders b ts).1 := by
  induction ts generalizing b with
  | nil => exact h
  | cons t ts ih =>
    simp only [Book.fillOrders]
    split
    · exact ih _ (WF_cancel b t.passive_id h)
    · rename_i hz
      exact ih _ (WF_setQty b t.passive_id _ (Nat.pos_of_ne_zero hz) h)

theorem WF_matchOrder (b : Book) (side : Side) (id : String) (q p : Nat) (h : BookWF b) :
    BookWF (b.matchOrder side id q p).1 := by
  cases side with
  | Buy => exact WF_fillOrders _ b h
  | Sell => exact WF_fillOrders _ b h
  | Invalid => exact h

theorem addToLevels_nonempty (id : String) (q p : Nat) (ls : List Level)
    (h : ∀ lv ∈ ls, lv.orders ≠ []) :
    ∀ lv' ∈ addToLevels id q p ls, lv'.orders ≠ [] := by
  induction ls with
  | nil =>
    intro lv' hlv'
    simp only [addToLevels, List.mem_singleton] at hlv'
    subst hlv'
    simp
  | cons lv ls ih =>
    simp only [addToLevels]
    split
    · intro lv' hlv'
      rcases List.mem_cons.1 hlv' with rfl | hlv'
      · simp
      · exact h lv' hlv'
    · split
      · intro lv' hlv'
        rcases List.mem_cons.1 hlv' with rfl | hlv'
        · show lv.orders ++ [⟨id, q⟩] ≠ []
          simp
        · exact h lv' (List.mem_cons_of_mem _ hlv')
      · intro lv' hlv'
        rcases List.mem_cons.1 hlv' with rfl | hlv'
        · exact h lv' (List.mem_cons_self _ _)
        · exact ih (fun u hu => h u (List.mem_cons_of_mem _ hu)) lv' hlv'

theorem addToLevels_qpos (id : String) (q p : Nat) (hq : 0 < q) (ls : List Level)
    (h : ∀ lv ∈ ls, ∀ o ∈ lv.orders, 0 < o.qty) :
    ∀ lv' ∈ addToLevels id q p ls, ∀ o ∈ lv'.orders, 0 < o.qty := by
  induction ls with
  | nil =>
    intro lv' hlv' o ho
    simp only [addToLevels, List.mem_singleton] at hlv'
    subst hlv'
    simp only [List.mem_singleton] at ho
    subst ho
    exact hq
  | cons lv ls ih =>
    simp only [addToLevels]
    split
    · intro lv' hlv' o ho
      rcases List.mem_cons.1 hlv' with rfl | hlv'
      · simp only [List.mem_singleton] at ho
        subst ho
        exact hq
      · exact h lv' hlv' o ho
    · split
      · intro lv' hlv' o ho
        rcases List.mem_cons.1 hlv' with rfl | hlv'
        · rcases List.mem_append.1 ho with ho' | ho'
          · exact h lv (List.mem_cons_self _ _) o ho'
          · rw [List.mem_singleton.1 ho']
            exact hq
        · exact h lv' (List.mem_cons_of_mem _ hlv') o ho
      · intro lv' hlv' o ho
        rcases List.mem_cons.1 hlv' with rfl | hlv'
        · exact h lv' (List.mem_cons_self _ _) o ho
        · exact ih (fun u hu => h u (List.mem_cons_of_mem _ hu)) lv' hlv' o ho

theorem addToLevels_cache (id : String) (q p : Nat) (ls : List Level)
    (h : ∀ lv ∈ ls, lv.qty = (lv.orders.map Order.qty).sum) :
    ∀ lv' ∈ addToLevels id q p ls, lv'.qty = (lv'.orders.map Order.qty).sum := by
  induction ls with
  | nil =>
    intro lv' hlv'
    simp only [addToLevels, List.mem_singleton] at hlv'
    subst hlv'
    simp
  | cons lv ls ih =>
    simp only [addToLevels]
    split
    · intro lv' hlv'
      rcases List.mem_cons.1 hlv' with rfl | hlv'
      · simp
      · exact h lv' hlv'
    · split
      · intro lv' hlv'
        rcases List.mem_cons.1 hlv' with rfl | hlv'
        · show lv.qty + q = ((lv.orders ++ [(⟨id, q⟩ : Order)]).map Order.qty).sum
          rw [List.map_append, List.sum_append, h lv (List.mem_cons_self _ _)]
          simp
        · exact h lv' (List.mem_cons_of_mem _ hlv')
      · intro lv' hlv'
        rcases List.mem_cons.1 hlv' with rfl | hlv'
        · exact h lv' (List.mem_cons_self _ _)
        · exact ih (fun u hu => h u (List.mem_cons_of_mem _ hu)) lv' hlv'

theorem WF_add_side_buy (b : Book) (id : String) (q p : Nat) (h : BookWF b)
    (hq : 0 < q) (hid : id ∉ b.allIds)
    (hcross : ∀ sp ∈ pricesOf b.sell_levels, p < sp) :
    BookWF ⟨addToLevels id q p b.buy_levels, b.sell_levels⟩ := by
  refine WF_update_buy b _ h ?_ ?_ ?_ ?_ ?_ ?_
  · exact addToLevels_sorted id q p _ h.buy_sorted
  · intro y hy
    rcases addToLevels_prices_mem id q p _ y hy with rfl | hy'
    · exact Or.inr hcross
    · exact Or.inl hy'
  · exact (allIds_add_buy_perm b id q p).nodup_iff.2 (List.nodup_cons.2 ⟨hid, h.nodup⟩)
  · exact addToLevels_nonempty id q p _ (hside_of_wf_buy b h)
  · exact addToLevels_qpos id q p hq _ (fun lv hlv => h.qpos lv (List.mem_append_left _ hlv))
  · exact addToLevels_cache id q p _ (fun lv hlv => h.cache lv (List.mem_append_left _ hlv))

theorem WF_add_side_sell (b : Book) (id : String) (q p : Nat) (h : BookWF b)
    (hq : 0 < q) (hid : id ∉ b.allIds)
    (hcross : ∀ bp ∈ pricesOf b.buy_levels, bp < p) :
    BookWF ⟨b.buy_levels, addToLevels id q p b.sell_levels⟩ := by
  refine WF_update_sell b _ h ?_ ?_ ?_ ?_ ?_ ?_
  · exact addToLevels_sorted id q p _ h.sell_sorted
  · intro y hy
    rcases addToLevels_prices_mem id q p _ y hy with rfl | hy'
    · exact Or.inr hcross
    · exact Or.inl hy'
  · exact (allIds_add_sell_perm b id q p).nodup_iff.2 (List.nodup_cons.2 ⟨hid, h.nodup⟩)
  · exact addToLevels_nonempty id q p _ (hside_of_wf_sell b h)
  · exact addToLevels_qpos id q p hq _ (fun lv hlv => h.qpos lv (List.mem_append_right _ hlv))
  · exact addToLevels_cache id q p _ (fun lv hlv => h.cache lv (List.mem_append_right _ hlv))

theorem mem_allIds_of_buy (b : Book) (lv : Level) (oid : String)
    (hlv : lv ∈ b.buy_levels) (hoid : oid ∈ oids lv) : oid ∈ b.allIds :=
  List.mem_append_left _ (List.mem_flatMap.2 ⟨lv, hlv, hoid⟩)

theorem mem_allIds_of_sell (b : Book) (lv : Level) (oid : String)
    (hlv : lv ∈ b.sell_levels) (hoid : oid ∈ oids lv) : oid ∈ b.allIds :=
  List.mem_append_right _ (List.mem_flatMap.2 ⟨lv, hlv, hoid⟩)

theorem not_contains_of_not_mem (b : Book) (id : String) (h : id ∉ b.allIds) :
    b.containsId id = false := by
  cases hc : b.containsId id with
  | false => rfl
  | true => exact absurd ((containsId_iff_mem b id).1 hc) h

theorem fill_full_removes (ts : List Trade) (b : Book) (pid : String)
    (hnodup : b.allIds.Nodup)
    (hmem : ∃ t ∈ ts, t.passive_id = pid ∧ t.passive_qty - t.aggressive_qty = 0) :
    pid ∉ (Book.fillOrders b ts).1.allIds := by
  induction ts generalizing b with
  | nil =>
    obtain ⟨t, ht, _⟩ := hmem
    simp at ht
  | cons t ts ih =>
    obtain ⟨t', ht', hpid, hzero⟩ := hmem
    simp only [Book.fillOrders]
    split
    · rename_i hz
      rcases List.mem_cons.1 ht' with rfl | ht'
      · subst hpid
        have hgone : t'.passive_id ∉ (b.cancel t'.passive_id).allIds := by
          intro hmem'
          have := (containsId_iff_mem _ _).2 hmem'
          rw [Book.cancel_not_contains b t'.passive_id hnodup] at this
          exact Bool.noConfusion this
        intro hmem'
        exact hgone ((fillOrders_allIds_sublist ts _).subset hmem')
      · exact ih (b.cancel t.passive_id)
          ((allIds_cancel_sublist b t.passive_id).nodup hnodup) ⟨t', ht', hpid, hzero⟩
    · rename_i hz
      rcases List.mem_cons.1 ht' with rfl | ht'
      · exact absurd hzero hz
      · refine ih _ ?_ ⟨t', ht', hpid, hzero⟩
        rw [allIds_setQty]
        exact hnodup

/-- After a Buy-side match with a nonzero leaves qty, every sell level of the
result whose price is compatible with the aggressive price holds only orders
with the aggressive id (the self-match survivors): every other compatible
resting sell was fully filled and cancelled. -/
theorem match_clears_buy (b : Book) (id : String) (q p : Nat) (h : BookWF b)
    (hnz : (b.matchOrder .Buy id q p).2.2 ≠ 0) :
    ∀ lv' ∈ (b.matchOrder .Buy id q p).1.sell_levels, lv'.price ≤ p →
      ∀ oid ∈ oids lv', oid = id := by
  intro lv' hlv' hple oid hoid
  by_contra hne
  obtain ⟨lv, hlv, hpr, hsub⟩ := (fillOrders_origin _ b).2 lv' hlv'
  have hoid' : oid ∈ oids lv := hsub oid hoid
  obtain ⟨o, ho, hoeq⟩ := List.mem_map.1 hoid'
  have hlvrev : lv ∈ b.sell_levels.reverse := List.mem_reverse.2 hlv
  have hmono : b.sell_levels.reverse.Pairwise
      (fun a c => (decide (p ≥ c.price)) = true → (decide (p ≥ a.price)) = true) := by
    have h1 : (pricesOf b.sell_levels.reverse).Pairwise (· < ·) := by
      rw [show pricesOf b.sell_levels.reverse = (pricesOf b.sell_levels).reverse by
        simp [pricesOf]]
      rw [List.pairwise_reverse]
      exact h.sell_sorted
    have h2 := (List.pairwise_map).1 h1
    refine h2.imp ?_
    intro a c hac hc
    simp only [decide_eq_true_eq] at hc ⊢
    omega
  have hpred : (decide (p ≥ lv.price)) = true := by
    simp only [decide_eq_true_eq]
    omega
  have hfull := matchWalk_full id p (fun op lp => decide (op ≥ lp)) q
    b.sell_levels.reverse hmono hnz lv hlvrev hpred o ho (by rw [hoeq]; exact hne)
  have hgone := fill_full_removes
    (matchWalk id p (fun op lp => decide (op ≥ lp)) q b.sell_levels.reverse).2 b
    o.order_id h.nodup ⟨_, hfull, rfl, by simp⟩
  rw [hoeq] at hgone
  exact hgone (mem_allIds_of_sell _ lv' oid hlv' hoid)

/-- Sell-side counterpart of `match_clears_buy`. -/
theorem match_clears_sell (b : Book) (id : String) (q p : Nat) (h : BookWF b)
    (hnz : (b.matchOrder .Sell id q p).2.2 ≠ 0) :
    ∀ lv' ∈ (b.matchOrder .Sell id q p).1.buy_levels, p ≤ lv'.price →
      ∀ oid ∈ oids lv', oid = id := by
  intro lv' hlv' hple oid hoid
  by_contra hne
  obtain ⟨lv, hlv, hpr, hsub⟩ := (fillOrders_origin _ b).1 lv' hlv'
  have hoid' : oid ∈ oids lv := hsub oid hoid
  obtain ⟨o, ho, hoeq⟩ := List.mem_map.1 hoid'
  have hmono : b.buy_levels.Pairwise
      (fun a c => (decide (p ≤ c.price)) = true → (decide (p ≤ a.price)) = true) := by
    have h2 := (List.pairwise_map).1 h.buy_sorted
    refine h2.imp ?_
    intro a c hac hc
    simp only [decide_eq_true_eq] at hc ⊢
    omega
  have hpred : (decide (p ≤ lv.price)) = true := by
    simp only [decide_eq_true_eq]
    omega
  have hfull := matchWalk_full id p (fun op lp => decide (op ≤ lp)) q
    b.buy_levels hmono hnz lv hlv hpred o ho (by rw [hoeq]; exact hne)
  have hgone := fill_full_removes
    (matchWalk id p (fun op lp => decide (op ≤ lp)) q b.buy_levels).2 b
    o.order_id h.nodup ⟨_, hfull, rfl, by simp⟩
  rw [hoeq] at hgone
  exact hgone (mem_allIds_of_buy _ lv' oid hlv' hoid)

theorem findInLevels_some_has (ls : List Level) (id : String) (pr qt : Nat)
    (h : findInLevels ls id = some (pr, qt)) : levelsHasId ls id = true := by
  cases hf : ls.find? (fun lv => lv.hasId id) with
  | none =>
    exfalso
    unfold findInLevels at h
    rw [hf] at h
    exact Option.noConfusion h
  | some lv =>
    have hx : lv.hasId id = true := by
      have h' := List.find?_some hf
      exact h'
    exact List.any_eq_true.2 ⟨lv, List.mem_of_find?_eq_some hf, hx⟩

theorem findInLevels_some_mem_flat (ls : List Level) (id : String) (pr qt : Nat)
    (h : findInLevels ls id = some (pr, qt)) : id ∈ flatIds ls :=
  (levelsHasId_iff_mem ls id).1 (findInLevels_some_has ls id pr qt h)

theorem findOrder_some_cases (b : Book) (id : String) (s : Side) (pr qt : Nat)
    (h : b.findOrder id = some (s, pr, qt)) :
    (s = Side.Buy ∧ findInLevels b.buy_levels id = some (pr, qt)) ∨
    (s = Side.Sell ∧ findInLevels b.buy_levels id = none ∧
      findInLevels b.sell_levels id = some (pr, qt)) := by
  unfold Book.findOrder at h
  cases hfb : findInLevels b.buy_levels id with
  | some r =>
    rw [hfb] at h
    obtain ⟨pr', qt'⟩ := r
    injection h with h
    injection h with h1 h2
    left
    refine ⟨h1.symm, ?_⟩
    rw [h2]
  | none =>
    rw [hfb] at h
    cases hfs : findInLevels b.sell_levels id with
    | some r =>
      rw [hfs] at h
      obtain ⟨pr', qt'⟩ := r
      injection h with h
      injection h with h1 h2
      right
      refine ⟨h1.symm, rfl, ?_⟩
      rw [h2]
    | none =>
      rw [hfs] at h
      exact Option.noConfusion h

theorem WF_modifyIn_buy (b : Book) (id : String) (q' p : Nat) (h : BookWF b) (hq : 0 < q')
    (hclear : ∀ lv ∈ b.sell_levels, lv.price ≤ p → ∀ oid ∈ oids lv, oid = id) :
    BookWF (b.modifyIn true id q' p) := by
  have hnodup := h.nodup
  have hnodup' := h.nodup
  rw [Book.allIds, List.nodup_append] at hnodup'
  obtain ⟨hnbuy, hnsell, hndisj⟩ := hnodup'
  cases hf : b.findOrder id with
  | none =>
    have heq : b.modifyIn true id q' p = b := by
      unfold Book.modifyIn
      rw [hf]
    rw [heq]
    exact h
  | some r =>
    obtain ⟨cside, cprice, cqty⟩ := r
    have hbody : b.modifyIn true id q' p =
        (if ((cside == Side.Buy) == true && cprice == p) = true then
          if (q' == cqty) = true then b
          else { b with buy_levels := modifyInLevels id q' b.buy_levels }
        else
          let b1 : Book :=
            if (cside == Side.Buy) = true then
              { b with buy_levels := cancelInLevels id b.buy_levels }
            else { b with sell_levels := cancelInLevels id b.sell_levels }
          { b1 with buy_levels := addToLevels id q' p b1.buy_levels }) := by
      unfold Book.modifyIn
      rw [hf]
      rfl
    rw [hbody]
    split
    · split
      · exact h
      · refine WF_update_buy b _ h ?_ ?_ ?_ ?_ ?_ ?_
        · rw [modifyInLevels_prices]
          exact h.buy_sorted
        · intro y hy
          rw [modifyInLevels_prices] at hy
          exact Or.inl hy
        · have hperm := flatIds_modifyInLevels_perm id q' b.buy_levels
          have hn := h.nodup
          rw [Book.allIds] at hn
          exact (hperm.append_right _).nodup_iff.2 hn
        · exact nonempty_modifyInLevels id q' _ (hside_of_wf_buy b h)
        · exact qpos_modifyInLevels id q' hq _
            (fun lv hlv => h.qpos lv (List.mem_append_left _ hlv))
        · exact cache_modifyInLevels id q' _
            (fun lv hlv => h.cache lv (List.mem_append_left _ hlv))
    · rcases findOrder_some_cases b id cside cprice cqty hf with ⟨hcs, hbf⟩ | ⟨hcs, hbn, hsf⟩
      · -- current side Buy: remove from the buy side, add back into the buy side
        subst hcs
        show BookWF ⟨addToLevels id q' p (cancelInLevels id b.buy_levels), b.sell_levels⟩
        have hhash : levelsHasId b.buy_levels id = true :=
          findInLevels_some_has _ _ _ _ hbf
        have hb1 : Book.mk (cancelInLevels id b.buy_levels) b.sell_levels = b.cancel id := by
          unfold Book.cancel
          rw [if_pos hhash]
        have hwf1 : BookWF (Book.mk (cancelInLevels id b.buy_levels) b.sell_levels) := by
          rw [hb1]
          exact WF_cancel b id h
        have hid1 : id ∉ (Book.mk (cancelInLevels id b.buy_levels) b.sell_levels).allIds := by
          rw [hb1]
          intro hmem
          have := (containsId_iff_mem _ _).2 hmem
          rw [Book.cancel_not_contains b id hnodup] at this
          exact Bool.noConfusion this
        refine WF_add_side_buy _ id q' p hwf1 hq hid1 ?_
        intro sp hsp
        by_contra hnot
        push_neg at hnot
        obtain ⟨lv', hlv', rfl⟩ := List.mem_map.1 hsp
        obtain ⟨o, ho⟩ := List.exists_mem_of_ne_nil _
          (hside_of_wf_sell b h lv' hlv')
        have hoid := hclear lv' hlv' hnot o.order_id (List.mem_map_of_mem _ ho)
        have hmemsell : id ∈ flatIds b.sell_levels := by
          rw [← hoid]
          exact List.mem_flatMap.2 ⟨lv', hlv', List.mem_map_of_mem _ ho⟩
        exact hndisj (findInLevels_some_mem_flat _ _ _ _ hbf) hmemsell
      · -- current side Sell: remove from the sell side, add into the buy side
        subst hcs
        show BookWF ⟨addToLevels id q' p b.buy_levels,
          cancelInLevels id b.sell_levels⟩
        have hhash : levelsHasId b.sell_levels id = true :=
          findInLevels_some_has _ _ _ _ hsf
        have hbhas : levelsHasId b.buy_levels id = false := by
          cases hc : levelsHasId b.buy_levels id with
          | false => rfl
          | true =>
            exfalso
            obtain ⟨pr', qt', hsome⟩ := findInLevels_isSome_of_has _ _ hc
            rw [hbn] at hsome
            exact Option.noConfusion hsome
        have hb1 : Book.mk b.buy_levels (cancelInLevels id b.sell_levels) = b.cancel id := by
          unfold Book.cancel
          rw [if_neg (by simp [hbhas]), if_pos hhash]
        have hwf1 : BookWF (Book.mk b.buy_levels (cancelInLevels id b.sell_levels)) := by
          rw [hb1]
          exact WF_cancel b id h
        have hid1 : id ∉ (Book.mk b.buy_levels (cancelInLevels id b.sell_levels)).allIds := by
          rw [hb1]
          intro hmem
          have := (containsId_iff_mem _ _).2 hmem
          rw [Book.cancel_not_contains b id hnodup] at this
          exact Bool.noConfusion this
        have hwf2 := WF_add_side_buy (Book.mk b.buy_levels (cancelInLevels id b.sell_levels))
          id q' p hwf1 hq hid1 ?_
        · exact hwf2
        · intro sp hsp
          by_contra hnot
          push_neg at hnot
          obtain ⟨lv', hlv', rfl⟩ := List.mem_map.1 hsp
          obtain ⟨lv, hlv, hpr, hsub⟩ := origin_cancelInLevels id b.sell_levels lv' hlv'
          obtain ⟨o, ho⟩ := List.exists_mem_of_ne_nil _
            (cancelInLevels_nonempty id _ (hside_of_wf_sell b h) lv' hlv')
          have hoid := hclear lv hlv (by rw [← hpr]; exact hnot) o.order_id
            (hsub o.order_id (List.mem_map_of_mem _ ho))
          have hmem : o.order_id ∈ flatIds (cancelInLevels id b.sell_levels) :=
            List.mem_flatMap.2 ⟨lv', hlv', List.mem_map_of_mem _ ho⟩
          rw [hoid] at hmem
          exact flatIds_cancel_not_mem id b.sell_levels hnsell hmem

theorem WF_modifyIn_sell (b : Book) (id : String) (q' p : Nat) (h : BookWF b) (hq : 0 < q')
    (hclear : ∀ lv ∈ b.buy_levels, p ≤ lv.price → ∀ oid ∈ oids lv, oid = id) :
    BookWF (b.modifyIn false id q' p) := by
  have hnodup := h.nodup
  have hnodup' := h.nodup
  rw [Book.allIds, List.nodup_append] at hnodup'
  obtain ⟨hnbuy, hnsell, hndisj⟩ := hnodup'
  cases hf : b.findOrder id with
  | none =>
    have heq : b.modifyIn false id q' p = b := by
      unfold Book.modifyIn
      rw [hf]
    rw [heq]
    exact h
  | some r =>
    obtain ⟨cside, cprice, cqty⟩ := r
    have hbody : b.modifyIn false id q' p =
        (if ((cside == Side.Buy) == false && cprice == p) = true then
          if (q' == cqty) = true then b
          else { b with sell_levels := modifyInLevels id q' b.sell_levels }
        else
          let b1 : Book :=
            if (cside == Side.Buy) = true then
              { b with buy_levels := cancelInLevels id b.buy_levels }
            else { b with sell_levels := cancelInLevels id b.sell_levels }
          { b1 with sell_levels := addToLevels id q' p b1.sell_levels }) := by
      unfold Book.modifyIn
      rw [hf]
      rfl
    rw [hbody]
    split
    · split
      · exact h
      · refine WF_update_sell b _ h ?_ ?_ ?_ ?_ ?_ ?_
        · rw [modifyInLevels_prices]
          exact h.sell_sorted
        · intro y hy
          rw [modifyInLevels_prices] at hy
          exact Or.inl hy
        · have hperm := flatIds_modifyInLevels_perm id q' b.sell_levels
          have hn := h.nodup
          rw [Book.allIds] at hn
          exact ((hperm.append_left _).nodup_iff).2 hn
        · exact nonempty_modifyInLevels id q' _ (hside_of_wf_sell b h)
        · exact qpos_modifyInLevels id q' hq _
            (fun lv hlv => h.qpos lv (List.mem_append_right _ hlv))
        · exact cache_modifyInLevels id q' _
            (fun lv hlv => h.cache lv (List.mem_append_right _ hlv))
    · rcases findOrder_some_cases b id cside cprice cqty hf with ⟨hcs, hbf⟩ | ⟨hcs, hbn, hsf⟩
      · -- current side Buy: remove from the buy side, add into the sell side
        subst hcs
        show BookWF ⟨cancelInLevels id b.buy_levels,
          addToLevels id q' p b.sell_levels⟩
        have hhash : levelsHasId b.buy_levels id = true :=
          findInLevels_some_has _ _ _ _ hbf
        have hb1 : Book.mk (cancelInLevels id b.buy_levels) b.sell_levels = b.cancel id := by
          unfold Book.cancel
          rw [if_pos hhash]
        have hwf1 : BookWF (Book.mk (cancelInLevels id b.buy_levels) b.sell_levels) := by
          rw [hb1]
          exact WF_cancel b id h
        have hid1 : id ∉ (Book.mk (cancelInLevels id b.buy_levels) b.sell_levels).allIds := by
          rw [hb1]
          intro hmem
          have := (containsId_iff_mem _ _).2 hmem
          rw [Book.cancel_not_contains b id hnodup] at this
          exact Bool.noConfusion this
        refine WF_add_side_sell (Book.mk (cancelInLevels id b.buy_levels) b.sell_levels)
          id q' p hwf1 hq hid1 ?_
        intro bp hbp
        by_contra hnot
        push_neg at hnot
        obtain ⟨lv', hlv', rfl⟩ := List.mem_map.1 hbp
        obtain ⟨lv, hlv, hpr, hsub⟩ := origin_cancelInLevels id b.buy_levels lv' hlv'
        obtain ⟨o, ho⟩ := List.exists_mem_of_ne_nil _
          (cancelInLevels_nonempty id _ (hside_of_wf_buy b h) lv' hlv')
        have hoid := hclear lv hlv (by rw [← hpr]; exact hnot) o.order_id
          (hsub o.order_id (List.mem_map_of_mem _ ho))
        have hmem : o.order_id ∈ flatIds (cancelInLevels id b.buy_levels) :=
          List.mem_flatMap.2 ⟨lv', hlv', List.mem_map_of_mem _ ho⟩
        rw [hoid] at hmem
        exact flatIds_cancel_not_mem id b.buy_levels hnbuy hmem
      · -- current side Sell: remove from the sell side, add back into the sell side
        subst hcs
        show BookWF ⟨b.buy_levels,
          addToLevels id q' p (cancelInLevels id b.sell_levels)⟩
        have hhash : levelsHasId b.sell_levels id = true :=
          findInLevels_some_has _ _ _ _ hsf
        have hbhas : levelsHasId b.buy_levels id = false := by
          cases hc : levelsHasId b.buy_levels id with
          | false => rfl
          | true =>
            exfalso
            obtain ⟨pr', qt', hsome⟩ := findInLevels_isSome_of_has _ _ hc
            rw [hbn] at hsome
            exact Option.noConfusion hsome
        have hb1 : Book.mk b.buy_levels (cancelInLevels id b.sell_levels) = b.cancel id := by
          unfold Book.cancel
          rw [if_neg (by simp [hbhas]), if_pos hhash]
        have hwf1 : BookWF (Book.mk b.buy_levels (cancelInLevels id b.sell_levels)) := by
          rw [hb1]
          exact WF_cancel b id h
        have hid1 : id ∉ (Book.mk b.buy_levels (cancelInLevels id b.sell_levels)).allIds := by
          rw [hb1]
          intro hmem
          have := (containsId_iff_mem _ _).2 hmem
          rw [Book.cancel_not_contains b id hnodup] at this
          exact Bool.noConfusion this
        refine WF_add_side_sell (Book.mk b.buy_levels (cancelInLevels id b.sell_levels))
          id q' p hwf1 hq hid1 ?_
        intro bp hbp
        by_contra hnot
        push_neg at hnot
        obtain ⟨lv', hlv', rfl⟩ := List.mem_map.1 hbp
        obtain ⟨o, ho⟩ := List.exists_mem_of_ne_nil _
          (hside_of_wf_buy b h lv' hlv')
        have hoid := hclear lv' hlv' hnot o.order_id (List.mem_map_of_mem _ ho)
        have hmembuy : id ∈ flatIds b.buy_levels := by
          rw [← hoid]
          exact List.mem_flatMap.2 ⟨lv', hlv', List.mem_map_of_mem _ ho⟩
        exact hndisj hmembuy (findInLevels_some_mem_flat _ _ _ _ hsf)

theorem WF_handleAdd (b : Book) (side : Side) (tif : TIF) (id : String) (q p : Nat)
    (h : BookWF b) : BookWF (handleAdd b side tif id q p).1 := by
  have hm := WF_matchOrder b side id q p h
  by_cases h0 : (b.matchOrder side id q p).2.2 = 0
  · have heq : (handleAdd b side tif id q p).1 = (b.matchOrder side id q p).1 := by
      simp [handleAdd, h0]
    rw [heq]
    exact hm
  · cases tif with
    | IOC =>
      have heq : (handleAdd b side .IOC id q p).1 = (b.matchOrder side id q p).1 := by
        simp [handleAdd, h0]
      rw [heq]
      exact hm
    | Invalid =>
      have heq : (handleAdd b side .Invalid id q p).1 = (b.matchOrder side id q p).1 := by
        simp [handleAdd, h0]
      rw [heq]
      exact hm
    | GFD =>
      have heq : (handleAdd b side .GFD id q p).1 =
          (b.matchOrder side id q p).1.add side id (b.matchOrder side id q p).2.2 p := by
        simp [handleAdd, h0]
      rw [heq]
      cases side with
      | Invalid => exact hm
      | Buy =>
        simp only [Book.add]
        split
        · exact hm
        · rename_i hc
          have hid : id ∉ (b.matchOrder .Buy id q p).1.allIds := fun hmem =>
            hc ((containsId_iff_mem _ _).2 hmem)
          refine WF_add_side_buy _ id _ p hm (Nat.pos_of_ne_zero h0) hid ?_
          intro sp hsp
          by_contra hnot
          push_neg at hnot
          obtain ⟨lv', hlv', rfl⟩ := List.mem_map.1 hsp
          obtain ⟨o, ho⟩ := List.exists_mem_of_ne_nil _
            (hm.nonempty lv' (List.mem_append_right _ hlv'))
          have hoid := match_clears_buy b id q p h h0 lv' hlv' hnot o.order_id
            (List.mem_map_of_mem _ ho)
          have hmem : o.order_id ∈ (b.matchOrder .Buy id q p).1.allIds :=
            mem_allIds_of_sell _ lv' o.order_id hlv' (List.mem_map_of_mem _ ho)
          rw [hoid] at hmem
          exact hid hmem
      | Sell =>
        simp only [Book.add]
        split
        · exact hm
        · rename_i hc
          have hid : id ∉ (b.matchOrder .Sell id q p).1.allIds := fun hmem =>
            hc ((containsId_iff_mem _ _).2 hmem)
          refine WF_add_side_sell _ id _ p hm (Nat.pos_of_ne_zero h0) hid ?_
          intro bp hbp
          by_contra hnot
          push_neg at hnot
          obtain ⟨lv', hlv', rfl⟩ := List.mem_map.1 hbp
          obtain ⟨o, ho⟩ := List.exists_mem_of_ne_nil _
            (hm.nonempty lv' (List.mem_append_left _ hlv'))
          have hoid := match_clears_sell b id q p h h0 lv' hlv' hnot o.order_id
            (List.mem_map_of_mem _ ho)
          have hmem : o.order_id ∈ (b.matchOrder .Sell id q p).1.allIds :=
            mem_allIds_of_buy _ lv' o.order_id hlv' (List.mem_map_of_mem _ ho)
          rw [hoid] at hmem
          exact hid hmem

theorem WF_handleModify (b : Book) (id : String) (side : Side) (p q : Nat)
    (h : BookWF b) : BookWF (handleModify b id side p q).1 := by
  have hm := WF_matchOrder b side id q p h
  by_cases h0 : (b.matchOrder side id q p).2.2 = 0
  · have heq : (handleModify b id side p q).1 = (b.matchOrder side id q p).1.cancel id := by
      simp [handleModify, h0]
    rw [heq]
    exact WF_cancel _ id hm
  · have heq : (handleModify b id side p q).1 =
        (b.matchOrder side id q p).1.modify side id (b.matchOrder side id q p).2.2 p := by
      simp [handleModify, h0]
    rw [heq]
    cases side with
    | Invalid => exact hm
    | Buy =>
      exact WF_modifyIn_buy _ id _ p hm (Nat.pos_of_ne_zero h0)
        (match_clears_buy b id q p h h0)
    | Sell =>
      exact WF_modifyIn_sell _ id _ p hm (Nat.pos_of_ne_zero h0)
        (match_clears_sell b id q p h h0)

theorem WF_empty : BookWF Book.empty :=
  ⟨List.Pairwise.nil, List.Pairwise.nil, by intro lv hlv; simp [Book.empty] at hlv,
    List.nodup_nil, by intro lv hlv; simp [Book.empty] at hlv,
    by intro lv hlv; simp [Book.empty] at hlv,
    by intro bp hbp; simp [Book.empty, pricesOf] at hbp⟩

theorem WF_apply (b : Book) (c : Cmd) (h : BookWF b) : BookWF (Cmd.apply b c) := by
  cases c with
  | buy tif p q id => exact WF_handleAdd b .Buy tif id q p h
  | sell tif p q id => exact WF_handleAdd b .Sell tif id q p h
  | cancel id => exact WF_cancel b id h
  | modify id side p q => exact WF_handleModify b id side p q h
  | printBook => exact h
  | clearBook => exact WF_empty

theorem WF_foldl (cs : List Cmd) (b : Book) (h : BookWF b) :
    BookWF (cs.foldl Cmd.apply b) := by
  induction cs generalizing b with
  | nil => exact h
  | cons c cs ih => exact ih _ (WF_apply b c h)

theorem reachable_wf (b : Book) (h : Reachable b) : BookWF b := by
  obtain ⟨cs, _, rfl⟩ := h
  exact WF_foldl cs Book.empty WF_empty

/-- C7: every book state reachable from the empty book by decoder-accepted
commands is uncrossed — every resting buy price is strictly below every
resting sell price, so in particular whenever both sides are non-empty the
best (highest) bid is strictly less than the best (lowest) ask. -/
theorem C7_book_uncrossed (b : Book) (h : Reachable b) : Uncrossed b :=
  (reachable_wf b h).uncrossed

theorem C7_witness :
    Uncrossed (applyCmds [Cmd.buy .GFD 95 10 "b1", Cmd.sell .GFD 105 10 "s1"]) :=
  C7_book_uncrossed _
    ⟨[Cmd.buy .GFD 95 10 "b1", Cmd.sell .GFD 105 10 "s1"], by decide, rfl⟩

/-- C1 (amended): for every reachable book the PRINT snapshot lists the sell
side first and then the buy side, each in the stored strictly descending
price order — so the buy side shows its best (highest) price first, while the
sell side shows its worst (highest) price first, not its best — and each
level line shows the level price together with the aggregated open quantity
of the orders queued at that level. -/
theorem C1_snapshot_sides (b : Book) (h : Reachable b) :
    b.snapshot = ("SELL:" :: b.sell_levels.map levelLine)
        ++ ("BUY:" :: b.buy_levels.map levelLine) ∧
    (pricesOf b.sell_levels).Pairwise (· > ·) ∧
    (pricesOf b.buy_levels).Pairwise (· > ·) ∧
    ∀ lv ∈ b.buy_levels ++ b.sell_levels,
      levelLine lv = toString lv.price ++ " " ++
        toString ((lv.orders.map Order.qty).sum) := by
  have hwf := reachable_wf b h
  refine ⟨rfl, hwf.sell_sorted, hwf.buy_sorted, ?_⟩
  intro lv hlv
  show toString lv.price ++ " " ++ toString lv.qty = _
  rw [hwf.cache lv hlv]

theorem C1_witness :
    (applyCmds [Cmd.sell .GFD 1000 10 "s1", Cmd.sell .GFD 1100 10 "s2"]).snapshot =
      ("SELL:" :: (applyCmds [Cmd.sell .GFD 1000 10 "s1",
          Cmd.sell .GFD 1100 10 "s2"]).sell_levels.map levelLine)
        ++ ("BUY:" :: (applyCmds [Cmd.sell .GFD 1000 10 "s1",
          Cmd.sell .GFD 1100 10 "s2"]).buy_levels.map levelLine) ∧
    (pricesOf (applyCmds [Cmd.sell .GFD 1000 10 "s1",
        Cmd.sell .GFD 1100 10 "s2"]).sell_levels).Pairwise (· > ·) :=
  ⟨(C1_snapshot_sides _ ⟨[Cmd.sell .GFD 1000 10 "s1", Cmd.sell .GFD 1100 10 "s2"],
      by decide, rfl⟩).1,
    (C1_snapshot_sides _ ⟨[Cmd.sell .GFD 1000 10 "s1", Cmd.sell .GFD 1100 10 "s2"],
      by decide, rfl⟩).2.1⟩

end MiniMatch
